import Mathlib

/-!
Verification of the openflow workflow engine and agent-chain orchestrator.

The definitions below are a shallow embedding of `src/bot/engine.py`,
`src/bot/nodes/base.py` and `src/bot/nodes/agent.py`.  Python dictionaries
are modelled as insertion-ordered association lists (`Dict`), Python's
`ValueError` conditions as explicit error types, and the external LLM
collaborator (`_run_single_agent`'s model invocation) as an oracle
function.  Functions that invoke handlers or the model additionally return
the list of invocations they performed, so that claims of the form
"no handler is invoked" are statable.
-/

namespace OpenFlow

/-- A Python `dict` with `str` keys: an insertion-ordered association list.
Well-formed dictionaries have pairwise distinct keys (`Dict.WF`). -/
abbrev Dict (V : Type) := List (String × V)

namespace Dict

variable {V : Type}

/-- `d.get(k)` returning `none` when the key is absent. -/
def get? : Dict V → String → Option V
  | [], _ => none
  | (k', v) :: rest, k => if k' == k then some v else get? rest k

/-- `d.get(k, v₀)`. -/
def getD (d : Dict V) (k : String) (v₀ : V) : V :=
  (get? d k).getD v₀

/-- `d[k] = v`: replace the value at the first occurrence of `k`,
or append `(k, v)` when `k` is absent (Python preserves the key's
original insertion position on overwrite). -/
def set : Dict V → String → V → Dict V
  | [], k, v => [(k, v)]
  | (k', v') :: rest, k, v =>
      if k' == k then (k, v) :: rest else (k', v') :: set rest k v

/-- `k in d`. -/
def hasKey (d : Dict V) (k : String) : Bool :=
  d.any (fun p => p.1 == k)

/-- The key list, in insertion order. -/
def keys (d : Dict V) : List String := d.map (·.1)

/-- `d.update(other)`: apply every entry of `other`, in order. -/
def update (d other : Dict V) : Dict V :=
  other.foldl (fun acc p => set acc p.1 p.2) d

/-- The value at the last occurrence of `k` (equal to `get?` on
well-formed dictionaries). -/
def getLast? : Dict V → String → Option V
  | [], _ => none
  | (k', v) :: rest, k =>
      match getLast? rest k with
      | some w => some w
      | none => if k' == k then some v else none

/-- Distinct keys: the invariant every dictionary built by Python satisfies. -/
def WF (d : Dict V) : Prop := (keys d).Nodup

theorem get?_set (d : Dict V) (k : String) (v : V) (k' : String) :
    get? (set d k v) k' = if k' = k then some v else get? d k' := by
  induction d with
  | nil =>
      by_cases h : k' = k
      · simp [set, get?, h]
      · have hb : (k == k') = false := by
          simpa [beq_eq_false_iff_ne] using fun hc : k = k' => h hc.symm
        simp [set, get?, hb, h]
  | cons p rest ih =>
      obtain ⟨k₀, v₀⟩ := p
      by_cases hk : k₀ = k
      · subst hk
        by_cases h : k' = k₀
        · subst h; simp [set, get?]
        · have hb : (k₀ == k') = false := by
            simpa [beq_eq_false_iff_ne] using fun hc : k₀ = k' => h hc.symm
          simp [set, get?, hb, h]
      · have hbk : (k₀ == k) = false := by simpa [beq_eq_false_iff_ne] using hk
        by_cases h : k' = k₀
        · subst h
          have hne : ¬ k' = k := hk
          simp [set, get?, hbk, hne]
        · have hb : (k₀ == k') = false := by
            simpa [beq_eq_false_iff_ne] using fun hc : k₀ = k' => h hc.symm
          simp [set, get?, hbk, hb, ih]

theorem getD_set (d : Dict V) (k : String) (v : V) (k' : String) (v₀ : V) :
    getD (set d k v) k' v₀ = if k' = k then v else getD d k' v₀ := by
  by_cases h : k' = k <;> simp [getD, get?_set, h]

theorem keys_cons (p : String × V) (rest : Dict V) :
    keys (p :: rest) = p.1 :: keys rest := rfl

theorem mem_keys_cons {p : String × V} {rest : Dict V} {k : String} :
    k ∈ keys (p :: rest) ↔ k = p.1 ∨ k ∈ keys rest := by
  rw [keys_cons]; exact List.mem_cons

theorem keys_set_of_mem (d : Dict V) (k : String) (v : V) (h : k ∈ keys d) :
    keys (set d k v) = keys d := by
  induction d with
  | nil => simp [keys] at h
  | cons p rest ih =>
      obtain ⟨k₀, v₀⟩ := p
      by_cases hk : k₀ = k
      · subst hk; simp [set, keys]
      · have hbk : (k₀ == k) = false := by simpa [beq_eq_false_iff_ne] using hk
        have hm : k ∈ keys rest := by
          rcases mem_keys_cons.mp h with h' | h'
          · exact absurd h'.symm hk
          · exact h'
        have hset : set ((k₀, v₀) :: rest) k v = (k₀, v₀) :: set rest k v := by
          simp [set, hbk]
        rw [hset, keys_cons, keys_cons, ih hm]

theorem keys_set_of_not_mem (d : Dict V) (k : String) (v : V) (h : k ∉ keys d) :
    keys (set d k v) = keys d ++ [k] := by
  induction d with
  | nil => simp [set, keys]
  | cons p rest ih =>
      obtain ⟨k₀, v₀⟩ := p
      have hk : ¬ k₀ = k := by
        intro hc; exact h (mem_keys_cons.mpr (Or.inl hc.symm))
      have hbk : (k₀ == k) = false := by simpa [beq_eq_false_iff_ne] using hk
      have hr : k ∉ keys rest := fun hm => h (mem_keys_cons.mpr (Or.inr hm))
      have hset : set ((k₀, v₀) :: rest) k v = (k₀, v₀) :: set rest k v := by
        simp [set, hbk]
      rw [hset, keys_cons, keys_cons, ih hr]
      rfl

theorem get?_eq_none_of_not_mem (d : Dict V) (k : String) (h : k ∉ keys d) :
    get? d k = none := by
  induction d with
  | nil => simp [get?]
  | cons p rest ih =>
      obtain ⟨k₀, v₀⟩ := p
      have hk : ¬ k₀ = k := fun hc => h (mem_keys_cons.mpr (Or.inl hc.symm))
      have hbk : (k₀ == k) = false := by simpa [beq_eq_false_iff_ne] using hk
      have hr : k ∉ keys rest := fun hm => h (mem_keys_cons.mpr (Or.inr hm))
      simp [get?, hbk, ih hr]

theorem get?_isSome_of_mem (d : Dict V) (k : String) (h : k ∈ keys d) :
    (get? d k).isSome := by
  induction d with
  | nil => simp [keys] at h
  | cons p rest ih =>
      obtain ⟨k₀, v₀⟩ := p
      by_cases hk : k₀ = k
      · simp [get?, hk]
      · have hbk : (k₀ == k) = false := by simpa [beq_eq_false_iff_ne] using hk
        have hm : k ∈ keys rest := by
          rcases mem_keys_cons.mp h with h' | h'
          · exact absurd h'.symm hk
          · exact h'
        simp [get?, hbk, ih hm]

theorem get?_mem {d : Dict V} {k : String} {x : V} (h : get? d k = some x) :
    (k, x) ∈ d := by
  induction d with
  | nil => simp [get?] at h
  | cons p rest ih =>
      obtain ⟨k₀, v₀⟩ := p
      by_cases hk : k₀ = k
      · subst hk
        simp [get?] at h
        subst h
        exact List.mem_cons_self _ _
      · have hbk : (k₀ == k) = false := by simpa [beq_eq_false_iff_ne] using hk
        simp [get?, hbk] at h
        exact List.mem_cons_of_mem _ (ih h)

theorem mem_keys_of_mem {d : Dict V} {k : String} {x : V} (h : (k, x) ∈ d) :
    k ∈ keys d :=
  List.mem_map_of_mem (·.1) h

theorem get?_of_mem_of_wf {d : Dict V} (hwf : WF d) {k : String} {x : V}
    (h : (k, x) ∈ d) : get? d k = some x := by
  induction d with
  | nil => simp at h
  | cons p rest ih =>
      obtain ⟨k₀, v₀⟩ := p
      rcases List.mem_cons.mp h with h' | h'
      · simp only [Prod.mk.injEq] at h'
        obtain ⟨h1, h2⟩ := h'
        subst h1
        subst h2
        simp [get?]
      · have hk : ¬ k₀ = k := by
          intro hc
          subst hc
          exact (List.nodup_cons.mp hwf).1 (mem_keys_of_mem h')
        have hbk : (k₀ == k) = false := by simpa [beq_eq_false_iff_ne] using hk
        simp [get?, hbk]
        exact ih (List.nodup_cons.mp hwf).2 h'

end Dict

/-! ### The data model (`src/bot/models.py`) -/

/-- A workflow node: identity, type name and static parameters
(`Node` in `models.py`).  The payload-value type `V` is a parameter. -/
structure Node (V : Type) where
  id : String
  type : String
  params : Dict V

/-- The edge map: source node id to ordered target node ids, in Python
dict iteration (insertion) order. -/
abbrev EdgeMap := List (String × List String)

/-- A workflow, restricted to the fields the engine reads. -/
structure Workflow (V : Type) where
  nodes : List (Node V)
  edges : EdgeMap

/-- The `ValueError`/`KeyError` conditions raised by `WorkflowEngine`
(`engine.py` lines 59, 62, 77 and the registry lookup in `base.py`). -/
inductive EngineError where
  | unknownNodeReference (id : String)
  | cyclicGraph
  | handlerNotFound (typeName : String)
deriving DecidableEq

/-- A registry entry (`NodeSpec` in `base.py`); the handler is a pure
function from (params, payload) to payload. -/
structure NodeSpec (V : Type) where
  description : String
  handler : Dict V → Dict V → Dict V

/-- The node registry: type name to spec (`NodeRegistry._nodes`). -/
abbrev Registry (V : Type) := Dict (NodeSpec V)

/-! ### The graph executor (`src/bot/engine.py`) -/

/-- `edges.get(nodeId, [])`. -/
def edgesGet (edges : EdgeMap) (k : String) : List String :=
  ((edges.find? (fun p => p.1 == k)).map (·.2)).getD []

/-- `node_map[i]` for `node_map = {n.id: n for n in nodes}`: the LAST
node with the given id wins, as in Python dict comprehension. -/
def nodeMapGet {V : Type} (nodes : List (Node V)) (i : String) : Option (Node V) :=
  nodes.foldl (fun acc n => if n.id == i then some n else acc) none

/-- Lines 54-55: `indegree[node.id] = 0` for every node. -/
def initIndegree {V : Type} (nodes : List (Node V)) : Dict Int :=
  nodes.foldl (fun d n => Dict.set d n.id 0) []

/-- Lines 60-63: check one target and bump its in-degree. -/
def addTarget (nodeIds : List String) (d : Dict Int) (t : String) :
    Except EngineError (Dict Int) :=
  if ¬ nodeIds.contains t then Except.error (.unknownNodeReference t)
  else Except.ok (Dict.set d t (Dict.getD d t 0 + 1))

/-- Lines 57-63: process one `(source, targets)` edge entry. -/
def addEntry (nodeIds : List String) (d : Dict Int) (p : String × List String) :
    Except EngineError (Dict Int) :=
  if ¬ nodeIds.contains p.1 then Except.error (.unknownNodeReference p.1)
  else p.2.foldlM (addTarget nodeIds) d

/-- Lines 57-63: validate every edge endpoint against the node-id set and
accumulate in-degrees; the first dangling id raises `unknownNodeReference`. -/
def addEdgeIndegrees (nodeIds : List String) (edges : EdgeMap) (d0 : Dict Int) :
    Except EngineError (Dict Int) :=
  edges.foldlM (addEntry nodeIds) d0

/-- One target decrement of lines 72-74: `indegree[target] -= 1`, and
enqueue the target when its in-degree reaches zero. -/
def kahnF (s : Dict Int × List String) (t : String) : Dict Int × List String :=
  let v := Dict.getD s.1 t 0 - 1
  (Dict.set s.1 t v, if v == 0 then s.2 ++ [t] else s.2)

/-- Lines 71-74: pop one node id, decrement each of its targets, and
collect (in order) the targets whose in-degree reaches zero. -/
def kahnStep (edges : EdgeMap) (indeg : Dict Int) (nodeId : String) :
    Dict Int × List String :=
  (edgesGet edges nodeId).foldl kahnF (indeg, [])

/-- Lines 68-74: the Kahn worklist loop (FIFO queue).  The `while queue`
loop is given `fuel`; the invariant proofs below show that with
`fuel = nodes.length` the queue is always empty when fuel runs out, so
the bounded loop coincides with Python's unbounded one. -/
def kahnLoop (edges : EdgeMap) : Nat → List String → Dict Int → List String → List String
  | 0, _, _, order => order
  | _ + 1, [], _, order => order
  | fuel + 1, nodeId :: rest, indeg, order =>
      let s := kahnStep edges indeg nodeId
      kahnLoop edges fuel (rest ++ s.2) s.1 (order ++ [nodeId])

/-- `WorkflowEngine._topological_sort` (lines 50-79).  The loop collects
node ids; the returned nodes are recovered through `nodeMapGet` exactly as
`order.append(node_map[node_id])` does. -/
def topologicalSort {V : Type} (nodes : List (Node V)) (edges : EdgeMap) :
    Except EngineError (List (Node V)) :=
  match addEdgeIndegrees (nodes.map (·.id)) edges (initIndegree nodes) with
  | .error e => .error e
  | .ok indeg =>
      let queue := (indeg.filter (fun p => p.2 == 0)).map (·.1)
      let order := kahnLoop edges nodes.length queue indeg []
      if order.length ≠ nodes.length then Except.error .cyclicGraph
      else Except.ok (order.filterMap (nodeMapGet nodes))

/-- The upstream ids of a node: every source whose target list contains
the node's id, in edge-map iteration order (lines 37-40). -/
def incomingSources (edges : EdgeMap) (nodeId : String) : List String :=
  (edges.filter (fun p => p.2.contains nodeId)).map (·.1)

/-- `WorkflowEngine._merge_parent_payloads` (lines 31-48). -/
def mergeParentPayloads {V : Type} (node : Node V) (edges : EdgeMap)
    (results : Dict (Dict V)) : Dict V :=
  let incoming := incomingSources edges node.id
  if incoming.isEmpty then []
  else incoming.foldl (fun merged s => Dict.update merged ((Dict.get? results s).getD [])) []

/-- Lines 19-21 of `run`: the payload handed to a node's handler — the
merged parent payloads, or the run's input when that merge is empty. -/
def resolveInput {V : Type} (node : Node V) (edges : EdgeMap)
    (results : Dict (Dict V)) (input : Dict V) : Dict V :=
  let pp := mergeParentPayloads node edges results
  if pp.isEmpty then input else pp

/-- The body of `run`'s `for node in ordered_nodes` loop (lines 18-24),
threading the `results` map and recording each handler invocation as a
`(node id, payload handed to the handler)` pair. -/
def runGo {V : Type} (reg : Registry V) (edges : EdgeMap) (input : Dict V) :
    List (Node V) → Dict (Dict V) → List (String × Dict V) →
    List (String × Dict V) × Except EngineError (Dict (Dict V))
  | [], results, log => (log, .ok results)
  | n :: rest, results, log =>
      let pp := resolveInput n edges results input
      match Dict.get? reg n.type with
      | none => (log, .error (.handlerNotFound n.type))
      | some spec =>
          runGo reg edges input rest (Dict.set results n.id (spec.handler n.params pp))
            (log ++ [(n.id, pp)])

/-- `WorkflowEngine.run` (lines 14-29).  The first component records the
handler invocations the run performed, in order; the second is the
returned payload or the raised error.  `results[ordered_nodes[-1].id]`
is modelled with a `getD []` default; the C1 theorem shows the lookup
always succeeds. -/
def run {V : Type} (reg : Registry V) (wf : Workflow V) (input : Dict V) :
    List (String × Dict V) × Except EngineError (Dict V) :=
  match topologicalSort wf.nodes wf.edges with
  | .error e => ([], .error e)
  | .ok ordered =>
      match runGo reg wf.edges input ordered [] [] with
      | (log, .error e) => (log, .error e)
      | (log, .ok results) =>
          match ordered.getLast? with
          | none => (log, .ok input)
          | some lastNode => (log, .ok ((Dict.get? results lastNode.id).getD []))

/-! ### Graph-theoretic vocabulary for the claims -/

/-- `u → v` is an edge of the edge map. -/
def hasEdgeB (edges : EdgeMap) (u v : String) : Bool :=
  edges.any (fun p => p.1 == u && p.2.contains v)

/-- Every consecutive pair of the list is an edge. -/
def isChain (edges : EdgeMap) : List String → Bool
  | [] => true
  | [_] => true
  | a :: b :: rest => hasEdgeB edges a b && isChain edges (b :: rest)

/-- The edge map contains a (nonempty) directed cycle. -/
def HasCycle (edges : EdgeMap) : Prop :=
  ∃ v l, isChain edges (v :: l ++ [v]) = true

/-- The edge map is acyclic. -/
def Acyclic (edges : EdgeMap) : Prop := ¬ HasCycle edges

/-- The edge map restricted to a set of node ids (used by claim C3's
"edge map restricted to existing node ids"). -/
def restrictEdges (edges : EdgeMap) (ids : List String) : EdgeMap :=
  (edges.filter (fun p => ids.contains p.1)).map
    (fun p => (p.1, p.2.filter (fun t => ids.contains t)))

/-- Every edge endpoint names an existing node id. -/
def EdgesValid (edges : EdgeMap) (ids : List String) : Prop :=
  ∀ p ∈ edges, p.1 ∈ ids ∧ ∀ t ∈ p.2, t ∈ ids

/-- Some edge endpoint is dangling. -/
def HasDangling (edges : EdgeMap) (ids : List String) : Prop :=
  ∃ p ∈ edges, p.1 ∉ ids ∨ ∃ t ∈ p.2, t ∉ ids

/-! ### Kahn-loop invariant machinery -/

/-- The number of in-edges of `v` whose source has not yet been emitted
into `order`: the value `indegree[v]` holds at that point of the loop. -/
def remainingIndeg (edges : EdgeMap) (order : List String) (v : String) : Nat :=
  ((edges.filter (fun p => !(order.contains p.1))).map (fun p => p.2.count v)).sum

theorem remainingIndeg_cons (p : String × List String) (rest : EdgeMap)
    (order : List String) (v : String) :
    remainingIndeg (p :: rest) order v =
      (if p.1 ∈ order then 0 else p.2.count v) + remainingIndeg rest order v := by
  unfold remainingIndeg
  by_cases hmem : p.1 ∈ order
  · simp [List.filter_cons, hmem]
  · simp [List.filter_cons, hmem]

theorem remainingIndeg_le_of_subset {edges : EdgeMap} {o₁ o₂ : List String}
    (h : ∀ x ∈ o₁, x ∈ o₂) (v : String) :
    remainingIndeg edges o₂ v ≤ remainingIndeg edges o₁ v := by
  induction edges with
  | nil => simp [remainingIndeg]
  | cons p rest ih =>
      rw [remainingIndeg_cons, remainingIndeg_cons]
      by_cases hmem : p.1 ∈ o₁
      · simp [hmem, h _ hmem]
        omega
      · by_cases hmem2 : p.1 ∈ o₂ <;> simp [hmem, hmem2] <;> omega

theorem remainingIndeg_append_of_not_key {edges : EdgeMap} {id : String}
    (h : id ∉ edges.map (·.1)) (order : List String) (v : String) :
    remainingIndeg edges (order ++ [id]) v = remainingIndeg edges order v := by
  induction edges with
  | nil => rfl
  | cons p rest ih =>
      obtain ⟨s, ts⟩ := p
      have hs : s ≠ id := by
        intro hc; exact h (by simp [hc])
      have hr : id ∉ rest.map (·.1) := fun hm => h (by simp at hm ⊢; exact Or.inr hm)
      rw [remainingIndeg_cons, remainingIndeg_cons, ih hr]
      have : (s ∈ order ++ [id]) ↔ s ∈ order := by simp [hs]
      by_cases hmem : s ∈ order <;> simp [this, hmem]

theorem remainingIndeg_append {edges : EdgeMap} {id : String} {order : List String}
    (hkeys : (edges.map (·.1)).Nodup) (hid : id ∉ order) (v : String) :
    remainingIndeg edges (order ++ [id]) v + (edgesGet edges id).count v =
      remainingIndeg edges order v := by
  induction edges with
  | nil => simp [remainingIndeg, edgesGet]
  | cons p rest ih =>
      obtain ⟨s, ts⟩ := p
      have hkr : (rest.map (·.1)).Nodup := (List.nodup_cons.mp hkeys).2
      rw [remainingIndeg_cons, remainingIndeg_cons]
      by_cases hs : s = id
      · subst hs
        have hrk : s ∉ rest.map (·.1) := (List.nodup_cons.mp hkeys).1
        have hget : edgesGet ((s, ts) :: rest) s = ts := by
          simp [edgesGet]
        have hrest : remainingIndeg rest (order ++ [s]) v = remainingIndeg rest order v :=
          remainingIndeg_append_of_not_key hrk order v
        have hmem1 : s ∈ order ++ [s] := by simp
        simp only [hget, hrest, hmem1, if_true, hid, if_false]
        omega
      · have hget : edgesGet ((s, ts) :: rest) id = edgesGet rest id := by
          have : (s == id) = false := by simpa [beq_eq_false_iff_ne] using hs
          simp [edgesGet, this]
        have hmemiff : (s ∈ order ++ [id]) ↔ s ∈ order := by simp [hs]
        have := ih hkr
        by_cases hmem : s ∈ order
        · simp only [hget, hmemiff, hmem, if_true]
          omega
        · simp only [hget, hmemiff, hmem, if_false]
          omega

theorem remainingIndeg_sources {edges : EdgeMap} :
    ∀ {order : List String} {v : String}, remainingIndeg edges order v = 0 →
      ∀ u ts, (u, ts) ∈ edges → v ∈ ts → u ∈ order := by
  induction edges with
  | nil =>
      intro order v _ u ts hmem
      simp at hmem
  | cons p rest ih =>
      intro order v h u ts hmem hv
      rw [remainingIndeg_cons] at h
      rcases List.mem_cons.mp hmem with h' | h'
      · have h1 : p.1 = u := by rw [← h']
        have h2 : p.2 = ts := by rw [← h']
        rw [h1, h2] at h
        by_cases hu : u ∈ order
        · exact hu
        · exfalso
          simp [hu] at h
          have : 0 < ts.count v := List.count_pos_iff.mpr hv
          omega
      · have hz : remainingIndeg rest order v = 0 := by
          by_cases hm : p.1 ∈ order
          · rw [if_pos hm] at h; omega
          · rw [if_neg hm] at h; omega
        exact ih hz u ts h' hv

theorem remainingIndeg_pos {edges : EdgeMap} :
    ∀ {order : List String} {v : String}, 0 < remainingIndeg edges order v →
      ∃ u ts, (u, ts) ∈ edges ∧ u ∉ order ∧ v ∈ ts := by
  induction edges with
  | nil =>
      intro order v h
      simp [remainingIndeg] at h
  | cons p rest ih =>
      intro order v h
      rw [remainingIndeg_cons] at h
      by_cases hmem : p.1 ∈ order
      · rw [if_pos hmem] at h
        have hp : 0 < remainingIndeg rest order v := by omega
        obtain ⟨u, ts, h1, h2, h3⟩ := ih hp
        exact ⟨u, ts, List.mem_cons_of_mem _ h1, h2, h3⟩
      · by_cases hrest : 0 < remainingIndeg rest order v
        · obtain ⟨u, ts, h1, h2, h3⟩ := ih hrest
          exact ⟨u, ts, List.mem_cons_of_mem _ h1, h2, h3⟩
        · have hc : 0 < p.2.count v := by
            rw [if_neg hmem] at h
            omega
          exact ⟨p.1, p.2, by simp, hmem, List.count_pos_iff.mp hc⟩

theorem kahnF_eq (s : Dict Int × List String) (t : String) :
    kahnF s t =
      (Dict.set s.1 t (Dict.getD s.1 t 0 - 1),
        if Dict.getD s.1 t 0 - 1 = 0 then s.2 ++ [t] else s.2) := by
  unfold kahnF
  by_cases h : Dict.getD s.1 t 0 - 1 = 0 <;> simp [h]

theorem kahnFold_val : ∀ (ts : List String) (s : Dict Int × List String) (v : String),
    Dict.getD (ts.foldl kahnF s).1 v 0 = Dict.getD s.1 v 0 - (ts.count v : Int) := by
  intro ts
  induction ts with
  | nil => intro s v; simp
  | cons t ts ih =>
      intro s v
      rw [List.foldl_cons, ih, kahnF_eq]
      show Dict.getD (Dict.set s.1 t (Dict.getD s.1 t 0 - 1)) v 0 - _ = _
      rw [Dict.getD_set, List.count_cons]
      by_cases hv : v = t
      · subst hv
        rw [if_pos rfl]
        have hb : (v == v) = true := by simp
        rw [hb, if_pos rfl]
        push_cast
        omega
      · have hb : (t == v) = false := by
          simpa [beq_eq_false_iff_ne] using fun hc : t = v => hv hc.symm
        rw [if_neg hv, hb]
        simp

theorem kahnFold_mem : ∀ (ts : List String) (s : Dict Int × List String) (v : String),
    v ∈ (ts.foldl kahnF s).2 ↔
      v ∈ s.2 ∨ (0 < Dict.getD s.1 v 0 ∧ Dict.getD s.1 v 0 ≤ (ts.count v : Int)) := by
  intro ts
  induction ts with
  | nil =>
      intro s v
      constructor
      · exact fun h => Or.inl h
      · rintro (h | ⟨h1, h2⟩)
        · exact h
        · simp at h2
          omega
  | cons t ts ih =>
      intro s v
      rw [List.foldl_cons, ih, kahnF_eq]
      show (v ∈ (if Dict.getD s.1 t 0 - 1 = 0 then s.2 ++ [t] else s.2) ∨
          (0 < Dict.getD (Dict.set s.1 t (Dict.getD s.1 t 0 - 1)) v 0 ∧ _)) ↔ _
      rw [Dict.getD_set, List.count_cons]
      by_cases hv : v = t
      · subst hv
        rw [if_pos rfl]
        have hb : (v == v) = true := by simp
        rw [hb, if_pos rfl]
        by_cases h1 : Dict.getD s.1 v 0 = 1
        · have hz : Dict.getD s.1 v 0 - 1 = 0 := by omega
          rw [if_pos hz]
          have hm : v ∈ s.2 ++ [v] := by simp
          constructor
          · intro _
            refine Or.inr ⟨by omega, ?_⟩
            push_cast
            omega
          · intro _
            exact Or.inl hm
        · have hz : ¬ (Dict.getD s.1 v 0 - 1 = 0) := by omega
          rw [if_neg hz]
          constructor
          · rintro (hq2 | ⟨ha, hb2⟩)
            · exact Or.inl hq2
            · refine Or.inr ⟨by omega, ?_⟩
              push_cast at hb2 ⊢
              omega
          · rintro (hq2 | ⟨ha, hb2⟩)
            · exact Or.inl hq2
            · refine Or.inr ⟨by omega, ?_⟩
              push_cast at hb2 ⊢
              omega
      · have hb : (t == v) = false := by
          simpa [beq_eq_false_iff_ne] using fun hc : t = v => hv hc.symm
        rw [if_neg hv, hb]
        have hq : (v ∈ (if Dict.getD s.1 t 0 - 1 = 0 then s.2 ++ [t] else s.2)) ↔ v ∈ s.2 := by
          by_cases h1 : Dict.getD s.1 t 0 - 1 = 0
          · rw [if_pos h1]
            simp [hv]
          · rw [if_neg h1]
        rw [hq]
        simp

theorem kahnFold_keys : ∀ (ts : List String) (s : Dict Int × List String),
    (∀ t ∈ ts, t ∈ Dict.keys s.1) →
    Dict.keys (ts.foldl kahnF s).1 = Dict.keys s.1 := by
  intro ts
  induction ts with
  | nil => intro s _; rfl
  | cons t ts ih =>
      intro s h
      rw [List.foldl_cons]
      have hk1 : Dict.keys (kahnF s t).1 = Dict.keys s.1 := by
        rw [kahnF_eq]
        exact Dict.keys_set_of_mem _ _ _ (h t (by simp))
      rw [ih (kahnF s t) (fun u hu => hk1 ▸ h u (by simp [hu])), hk1]

theorem kahnFold_nodup : ∀ (ts : List String) (s : Dict Int × List String),
    s.2.Nodup → (∀ v ∈ s.2, Dict.getD s.1 v 0 ≤ 0) →
    (ts.foldl kahnF s).2.Nodup ∧
      ∀ v ∈ (ts.foldl kahnF s).2, Dict.getD (ts.foldl kahnF s).1 v 0 ≤ 0 := by
  intro ts
  induction ts with
  | nil => intro s h1 h2; exact ⟨h1, h2⟩
  | cons t ts ih =>
      intro s h1 h2
      rw [List.foldl_cons]
      apply ih (kahnF s t)
      · rw [kahnF_eq]
        by_cases hz : Dict.getD s.1 t 0 - 1 = 0
        · rw [if_pos hz]
          show (s.2 ++ [t]).Nodup
          rw [List.nodup_append]
          refine ⟨h1, List.nodup_singleton t, ?_⟩
          intro a ha hat
          have : a = t := by simpa using hat
          subst this
          have := h2 a ha
          omega
        · rw [if_neg hz]
          exact h1
      · rw [kahnF_eq]
        intro v hv
        show Dict.getD (Dict.set s.1 t (Dict.getD s.1 t 0 - 1)) v 0 ≤ 0
        rw [Dict.getD_set]
        by_cases hvt : v = t
        · rw [if_pos hvt]
          subst hvt
          by_cases hz : Dict.getD s.1 v 0 - 1 = 0
          · omega
          · rw [if_neg hz] at hv
            have := h2 v hv
            omega
        · rw [if_neg hvt]
          by_cases hz : Dict.getD s.1 t 0 - 1 = 0
          · rw [if_pos hz] at hv
            rcases List.mem_append.mp hv with hva | hvb
            · exact h2 v hva
            · exact absurd (by simpa using hvb) hvt
          · rw [if_neg hz] at hv
            exact h2 v hv

/-- Any target list read off the edge map points only at existing ids. -/
theorem edgesGet_valid {edges : EdgeMap} {ids : List String}
    (hvalid : EdgesValid edges ids) (u : String) :
    ∀ t ∈ edgesGet edges u, t ∈ ids := by
  intro t ht
  unfold edgesGet at ht
  cases hfind : edges.find? (fun p => p.1 == u) with
  | none => rw [hfind] at ht; simp at ht
  | some p =>
      rw [hfind] at ht
      simp at ht
      exact (hvalid p (List.mem_of_find?_eq_some hfind)).2 t ht

/-- The loop invariant of `kahnLoop`, tying the `indegree` dictionary and
the queue to the list `order` of already-emitted node ids. -/
structure KahnInv (edges : EdgeMap) (ids : List String)
    (queue : List String) (indeg : Dict Int) (order : List String) : Prop where
  keysEq : Dict.keys indeg = ids
  val : ∀ v ∈ ids, Dict.getD indeg v 0 = (remainingIndeg edges order v : Int)
  orderNodup : order.Nodup
  queueNodup : queue.Nodup
  orderSub : ∀ v ∈ order, v ∈ ids
  queueSub : ∀ v ∈ queue, v ∈ ids
  queueChar : ∀ v ∈ ids, (v ∈ queue ↔ v ∉ order ∧ remainingIndeg edges order v = 0)
  orderDone : ∀ v ∈ order, remainingIndeg edges order v = 0
  orderConsistent : ∀ j v, order.get? j = some v → ∀ u ts, (u, ts) ∈ edges → v ∈ ts →
      ∃ i, i < j ∧ order.get? i = some u

theorem getD_ne_zero_mem_keys {d : Dict Int} {v : String}
    (h : Dict.getD d v 0 ≠ 0) : v ∈ Dict.keys d := by
  by_contra hm
  exact h (by simp [Dict.getD, Dict.get?_eq_none_of_not_mem d v hm])

/-- Popping the head of the queue preserves the Kahn invariant. -/
theorem kahnInv_step {edges : EdgeMap} {ids : List String}
    (hids : ids.Nodup) (hkeys : (edges.map (·.1)).Nodup)
    (hvalid : EdgesValid edges ids)
    {id : String} {rest : List String} {indeg : Dict Int} {order : List String}
    (inv : KahnInv edges ids (id :: rest) indeg order) :
    KahnInv edges ids (rest ++ (kahnStep edges indeg id).2)
      (kahnStep edges indeg id).1 (order ++ [id]) := by
  have hidq : id ∈ id :: rest := by simp
  have hid_ids : id ∈ ids := inv.queueSub id hidq
  obtain ⟨hid_not_order, hid_rem0⟩ := (inv.queueChar id hid_ids).mp hidq
  have htargets_ids : ∀ t ∈ edgesGet edges id, t ∈ ids := edgesGet_valid hvalid id
  have hF1 : ∀ v, Dict.getD (kahnStep edges indeg id).1 v 0 =
      Dict.getD indeg v 0 - ((edgesGet edges id).count v : Int) := by
    intro v
    exact kahnFold_val (edgesGet edges id) (indeg, []) v
  have hF2 : ∀ v, v ∈ (kahnStep edges indeg id).2 ↔
      (0 < Dict.getD indeg v 0 ∧
        Dict.getD indeg v 0 ≤ ((edgesGet edges id).count v : Int)) := by
    intro v
    have := kahnFold_mem (edgesGet edges id) (indeg, []) v
    simpa using this
  have hF3 : Dict.keys (kahnStep edges indeg id).1 = ids := by
    have h1 := kahnFold_keys (edgesGet edges id) (indeg, [])
      (fun t ht => by
        show t ∈ Dict.keys indeg
        rw [inv.keysEq]
        exact htargets_ids t ht)
    calc Dict.keys (kahnStep edges indeg id).1
        = Dict.keys (indeg, ([] : List String)).1 := h1
      _ = ids := inv.keysEq
  have hF4 : (kahnStep edges indeg id).2.Nodup := by
    have := kahnFold_nodup (edgesGet edges id) (indeg, []) (by simp) (by simp)
    exact this.1
  have hF5 : ∀ v, remainingIndeg edges (order ++ [id]) v + (edgesGet edges id).count v =
      remainingIndeg edges order v := fun v => remainingIndeg_append hkeys hid_not_order v
  have hrestq : rest.Nodup := (List.nodup_cons.mp inv.queueNodup).2
  have hid_not_rest : id ∉ rest := (List.nodup_cons.mp inv.queueNodup).1
  have hD2 : ∀ v ∈ (kahnStep edges indeg id).2, v ∈ ids := by
    intro v hv
    obtain ⟨hpos, _⟩ := (hF2 v).mp hv
    have : v ∈ Dict.keys indeg := getD_ne_zero_mem_keys (by omega)
    rwa [inv.keysEq] at this
  have hD3 : ∀ v ∈ (kahnStep edges indeg id).2, v ∉ order ∧ v ≠ id := by
    intro v hv
    obtain ⟨hpos, _⟩ := (hF2 v).mp hv
    have hv_ids := hD2 v hv
    have hval := inv.val v hv_ids
    constructor
    · intro hvo
      have := inv.orderDone v hvo
      rw [hval] at hpos
      omega
    · intro hvi
      subst hvi
      rw [hval] at hpos
      omega
  have hD4 : ∀ v ∈ rest, v ∉ (kahnStep edges indeg id).2 := by
    intro v hvr hvn
    have hvq : v ∈ id :: rest := by simp [hvr]
    have hv_ids := inv.queueSub v hvq
    obtain ⟨_, hrem⟩ := (inv.queueChar v hv_ids).mp hvq
    obtain ⟨hpos, _⟩ := (hF2 v).mp hvn
    have hval := inv.val v hv_ids
    rw [hval] at hpos
    omega
  refine ⟨hF3, ?_, ?_, ?_, ?_, ?_, ?_, ?_, ?_⟩
  · -- val
    intro v hv
    rw [hF1 v, inv.val v hv]
    have := hF5 v
    push_cast
    omega
  · -- orderNodup
    simp [List.nodup_append, inv.orderNodup, hid_not_order]
  · -- queueNodup
    rw [List.nodup_append]
    exact ⟨hrestq, hF4, fun v hvr hvn => hD4 v hvr hvn⟩
  · -- orderSub
    intro v hv
    rcases List.mem_append.mp hv with h | h
    · exact inv.orderSub v h
    · have : v = id := by simpa using h
      subst this
      exact hid_ids
  · -- queueSub
    intro v hv
    rcases List.mem_append.mp hv with h | h
    · exact inv.queueSub v (by simp [h])
    · exact hD2 v h
  · -- queueChar
    intro v hv
    constructor
    · intro hvq
      rcases List.mem_append.mp hvq with h | h
      · obtain ⟨hvo, hrem⟩ := (inv.queueChar v hv).mp (by simp [h])
        have hvid : v ≠ id := fun hc => hid_not_rest (hc ▸ h)
        refine ⟨?_, ?_⟩
        · intro hc
          rcases List.mem_append.mp hc with hc | hc
          · exact hvo hc
          · exact hvid (by simpa using hc)
        · have hle : remainingIndeg edges (order ++ [id]) v ≤ remainingIndeg edges order v :=
            remainingIndeg_le_of_subset (fun x hx => by simp [hx]) v
          omega
      · obtain ⟨hvo, hvid⟩ := hD3 v h
        obtain ⟨hpos, hle⟩ := (hF2 v).mp h
        have hval := inv.val v hv
        refine ⟨?_, ?_⟩
        · intro hc
          rcases List.mem_append.mp hc with hc | hc
          · exact hvo hc
          · exact hvid (by simpa using hc)
        · have := hF5 v
          rw [hval] at hle
          push_cast at hle
          omega
    · rintro ⟨hvo', hrem'⟩
      have hvo : v ∉ order := fun hc => hvo' (by simp [hc])
      have hvid : v ≠ id := fun hc => hvo' (by simp [hc])
      by_cases hz : remainingIndeg edges order v = 0
      · have hvq : v ∈ id :: rest := (inv.queueChar v hv).mpr ⟨hvo, hz⟩
        rcases List.mem_cons.mp hvq with h | h
        · exact absurd h hvid
        · exact List.mem_append.mpr (Or.inl h)
      · refine List.mem_append.mpr (Or.inr ?_)
        rw [hF2 v]
        have hval := inv.val v hv
        have := hF5 v
        rw [hval]
        push_cast
        omega
  · -- orderDone
    intro v hv
    have hle : remainingIndeg edges (order ++ [id]) v ≤ remainingIndeg edges order v :=
      remainingIndeg_le_of_subset (fun x hx => by simp [hx]) v
    rcases List.mem_append.mp hv with h | h
    · have := inv.orderDone v h
      omega
    · have : v = id := by simpa using h
      subst this
      omega
  · -- orderConsistent
    intro j v hj u ts hmem hvts
    have hjlen : j < order.length + 1 := by
      by_contra hc
      push_neg at hc
      have : (order ++ [id]).get? j = none := by
        rw [List.get?_eq_none]
        simp
        omega
      rw [this] at hj
      exact Option.noConfusion hj
    rcases Nat.lt_or_ge j order.length with hlt | hge
    · have hjo : order.get? j = some v := by
        rw [← List.get?_append hlt]
        exact hj
      obtain ⟨i, hi, hgi⟩ := inv.orderConsistent j v hjo u ts hmem hvts
      refine ⟨i, hi, ?_⟩
      rw [List.get?_append (by omega)]
      exact hgi
    · have hje : j = order.length := by omega
      subst hje
      rw [List.get?_concat_length] at hj
      have hv_id : v = id := by
        have := Option.some.inj hj
        exact this.symm
      subst hv_id
      have hu_order : u ∈ order := remainingIndeg_sources hid_rem0 u ts hmem hvts
      obtain ⟨i, hgi⟩ := List.mem_iff_get?.mp hu_order
      have hilt : i < order.length := by
        rcases List.get?_eq_some.mp hgi with ⟨h, _⟩
        exact h
      refine ⟨i, hilt, ?_⟩
      rw [List.get?_append hilt]
      exact hgi

/-- Running the loop from any invariant state reaches an empty-queue
invariant state; `fuel + order.length = ids.length` certifies that the
fuel bound `nodes.length` in `topologicalSort` never truncates the loop. -/
theorem kahnLoop_spec {edges : EdgeMap} {ids : List String}
    (hids : ids.Nodup) (hkeys : (edges.map (·.1)).Nodup)
    (hvalid : EdgesValid edges ids) :
    ∀ (fuel : Nat) (queue : List String) (indeg : Dict Int) (order : List String),
      KahnInv edges ids queue indeg order →
      fuel + order.length = ids.length →
      ∃ indeg', KahnInv edges ids [] indeg' (kahnLoop edges fuel queue indeg order) := by
  intro fuel
  induction fuel with
  | zero =>
      intro queue indeg order inv hfuel
      have hdisj : order.Disjoint queue := by
        intro a ha haq
        exact ((inv.queueChar a (inv.orderSub a ha)).mp haq).1 ha
      have hnodup : (order ++ queue).Nodup :=
        List.nodup_append.mpr ⟨inv.orderNodup, inv.queueNodup, hdisj⟩
      have hsub : (order ++ queue) ⊆ ids := by
        intro v hv
        rcases List.mem_append.mp hv with h | h
        · exact inv.orderSub v h
        · exact inv.queueSub v h
      have hle := (List.Nodup.subperm hnodup hsub).length_le
      rw [List.length_append] at hle
      have hq : queue = [] := by
        have : queue.length = 0 := by omega
        exact List.length_eq_zero.mp this
      subst hq
      exact ⟨indeg, inv⟩
  | succ fuel ih =>
      intro queue indeg order inv hfuel
      cases queue with
      | nil => exact ⟨indeg, inv⟩
      | cons id rest =>
          have inv' := kahnInv_step hids hkeys hvalid inv
          have hfuel' : fuel + (order ++ [id]).length = ids.length := by
            rw [List.length_append]
            simp only [List.length_singleton]
            omega
          exact ih _ _ _ inv' hfuel'

/-- `initIndegree` binds every node id to `0`. -/
theorem initIndegree_get? {V : Type} (nodes : List (Node V)) (v : String) :
    Dict.get? (initIndegree nodes) v =
      if v ∈ nodes.map (·.id) then some 0 else none := by
  suffices h : ∀ (d : Dict Int),
      Dict.get? (nodes.foldl (fun d n => Dict.set d n.id 0) d) v =
        if v ∈ nodes.map (·.id) then some 0 else Dict.get? d v by
    have := h []
    simpa [initIndegree, Dict.get?] using this
  induction nodes with
  | nil => intro d; simp
  | cons n rest ih =>
      intro d
      rw [List.foldl_cons, ih (Dict.set d n.id 0), Dict.get?_set]
      by_cases h1 : v ∈ rest.map (·.id)
      · simp [List.map_cons, List.mem_cons, h1]
      · by_cases h2 : v = n.id <;> simp [List.map_cons, List.mem_cons, h1, h2]

/-- With distinct node ids, `initIndegree`'s key list is the node-id list. -/
theorem initIndegree_keys {V : Type} (nodes : List (Node V))
    (h : (nodes.map (·.id)).Nodup) :
    Dict.keys (initIndegree nodes) = nodes.map (·.id) := by
  suffices hgen : ∀ (ns : List (Node V)) (d : Dict Int), (ns.map (·.id)).Nodup →
      (∀ n ∈ ns, n.id ∉ Dict.keys d) →
      Dict.keys (ns.foldl (fun d n => Dict.set d n.id 0) d) =
        Dict.keys d ++ ns.map (·.id) by
    have := hgen nodes [] h (by simp [Dict.keys])
    simpa [initIndegree, Dict.keys] using this
  intro ns
  induction ns with
  | nil => intro d _ _; simp
  | cons n rest ih =>
      intro d hnd hfresh
      rw [List.foldl_cons]
      have hset : Dict.keys (Dict.set d n.id 0) = Dict.keys d ++ [n.id] :=
        Dict.keys_set_of_not_mem d n.id 0 (hfresh n (by simp))
      have hnd' : (rest.map (·.id)).Nodup := (List.nodup_cons.mp hnd).2
      have hfresh' : ∀ m ∈ rest, m.id ∉ Dict.keys (Dict.set d n.id 0) := by
        intro m hm hc
        rw [hset] at hc
        rcases List.mem_append.mp hc with hc | hc
        · exact hfresh m (by simp [hm]) hc
        · have heq : m.id = n.id := by simpa using hc
          have hmm : n.id ∈ rest.map (·.id) :=
            heq ▸ List.mem_map_of_mem (·.id) hm
          exact (List.nodup_cons.mp hnd).1 hmm
      rw [ih (Dict.set d n.id 0) hnd' hfresh', hset]
      simp

/-! ### Properties of the in-degree accumulation (lines 57-63) -/

theorem addTargets_ok {ids : List String} :
    ∀ (ts : List String) (d : Dict Int),
      (∀ t ∈ ts, t ∈ ids) → (∀ t ∈ ts, t ∈ Dict.keys d) →
      ∃ d', ts.foldlM (addTarget ids) d = .ok d' ∧ Dict.keys d' = Dict.keys d ∧
        ∀ v, Dict.getD d' v 0 = Dict.getD d v 0 + (ts.count v : Int) := by
  intro ts
  induction ts with
  | nil =>
      intro d _ _
      refine ⟨d, rfl, rfl, by simp⟩
  | cons t ts ih =>
      intro d hin hkeys
      have htin : t ∈ ids := hin t (by simp)
      have hc : ids.contains t = true := by simpa using htin
      have hstep : addTarget ids d t = .ok (Dict.set d t (Dict.getD d t 0 + 1)) := by
        unfold addTarget
        rw [if_neg (not_not_intro hc)]
      have hkset : Dict.keys (Dict.set d t (Dict.getD d t 0 + 1)) = Dict.keys d :=
        Dict.keys_set_of_mem _ _ _ (hkeys t (by simp))
      obtain ⟨d', hok, hk, hv⟩ := ih (Dict.set d t (Dict.getD d t 0 + 1))
        (fun u hu => hin u (by simp [hu]))
        (fun u hu => by rw [hkset]; exact hkeys u (by simp [hu]))
      refine ⟨d', ?_, by rw [hk, hkset], ?_⟩
      · rw [List.foldlM_cons, hstep]
        exact hok
      · intro v
        rw [hv v, Dict.getD_set, List.count_cons]
        by_cases hvt : v = t
        · subst hvt
          rw [if_pos rfl]
          have hb : (v == v) = true := by simp
          rw [hb, if_pos rfl]
          push_cast
          omega
        · have hb : (t == v) = false := by
            simpa [beq_eq_false_iff_ne] using fun hcc : t = v => hvt hcc.symm
          rw [if_neg hvt, hb]
          simp

theorem addEntries_ok {ids : List String} :
    ∀ (es : EdgeMap) (d : Dict Int),
      EdgesValid es ids → (∀ t ∈ ids, t ∈ Dict.keys d) →
      ∃ d', es.foldlM (addEntry ids) d = .ok d' ∧ Dict.keys d' = Dict.keys d ∧
        ∀ v, Dict.getD d' v 0 = Dict.getD d v 0 + (remainingIndeg es [] v : Int) := by
  intro es
  induction es with
  | nil =>
      intro d _ _
      refine ⟨d, rfl, rfl, by simp [remainingIndeg]⟩
  | cons p rest ih =>
      intro d hvalid hcover
      obtain ⟨hs, hts⟩ := hvalid p (by simp)
      have hc : ids.contains p.1 = true := by simpa using hs
      obtain ⟨d₁, hok₁, hk₁, hv₁⟩ := addTargets_ok p.2 d hts
        (fun t ht => hcover t (hts t ht))
      have hentry : addEntry ids d p = .ok d₁ := by
        unfold addEntry
        rw [if_neg (not_not_intro hc)]
        exact hok₁
      obtain ⟨d', hok, hk, hv⟩ := ih d₁
        (fun q hq => hvalid q (by simp [hq]))
        (fun t ht => by rw [hk₁]; exact hcover t ht)
      refine ⟨d', ?_, by rw [hk, hk₁], ?_⟩
      · rw [List.foldlM_cons, hentry]
        exact hok
      · intro v
        rw [hv v, hv₁ v, remainingIndeg_cons]
        simp only [List.not_mem_nil, if_neg]
        push_cast
        omega

theorem addTargets_error_shape {ids : List String} :
    ∀ (ts : List String) (d : Dict Int) (err : EngineError),
      ts.foldlM (addTarget ids) d = .error err →
      ∃ t ∈ ts, t ∉ ids ∧ err = .unknownNodeReference t := by
  intro ts
  induction ts with
  | nil =>
      intro d err h
      exact Except.noConfusion h
  | cons t ts ih =>
      intro d err h
      rw [List.foldlM_cons] at h
      by_cases ht : t ∈ ids
      · have hc : ids.contains t = true := by simpa using ht
        have hstep : addTarget ids d t = .ok (Dict.set d t (Dict.getD d t 0 + 1)) := by
          unfold addTarget
          rw [if_neg (not_not_intro hc)]
        rw [hstep] at h
        obtain ⟨u, hu, hun, herr⟩ := ih _ _ h
        exact ⟨u, by simp [hu], hun, herr⟩
      · have hc : ids.contains t = false := by simpa using ht
        have hcond : ¬ (ids.contains t = true) := by
          intro hcc
          rw [hc] at hcc
          exact Bool.false_ne_true hcc
        have hstep : addTarget ids d t = .error (.unknownNodeReference t) := by
          unfold addTarget
          rw [if_pos hcond]
        rw [hstep] at h
        have herr : err = .unknownNodeReference t := by
          have : (Except.error (EngineError.unknownNodeReference t) :
              Except EngineError (Dict Int)) = .error err := by
            exact h ▸ rfl
          exact (Except.error.inj this).symm
        exact ⟨t, by simp, ht, herr⟩

theorem addTargets_ok_valid {ids : List String} :
    ∀ (ts : List String) (d d' : Dict Int),
      ts.foldlM (addTarget ids) d = .ok d' → ∀ t ∈ ts, t ∈ ids := by
  intro ts
  induction ts with
  | nil =>
      intro d d' _ t ht
      simp at ht
  | cons t ts ih =>
      intro d d' h u hu
      rw [List.foldlM_cons] at h
      by_cases ht : t ∈ ids
      · have hc : ids.contains t = true := by simpa using ht
        have hstep : addTarget ids d t = .ok (Dict.set d t (Dict.getD d t 0 + 1)) := by
          unfold addTarget
          rw [if_neg (not_not_intro hc)]
        rw [hstep] at h
        rcases List.mem_cons.mp hu with h' | h'
        · exact h' ▸ ht
        · exact ih _ _ h u h'
      · exfalso
        have hc : ids.contains t = false := by simp [ht]
        have hcond : ¬ (ids.contains t = true) := by
          intro hcc
          rw [hc] at hcc
          exact Bool.false_ne_true hcc
        have hstep : addTarget ids d t = .error (.unknownNodeReference t) := by
          unfold addTarget
          rw [if_pos hcond]
        rw [hstep] at h
        exact Except.noConfusion h

theorem addEntries_error_shape {ids : List String} :
    ∀ (es : EdgeMap) (d : Dict Int) (err : EngineError),
      es.foldlM (addEntry ids) d = .error err →
      ∃ e, err = .unknownNodeReference e ∧ e ∉ ids ∧
        ((∃ ts, (e, ts) ∈ es) ∨ ∃ p ∈ es, e ∈ p.2) := by
  intro es
  induction es with
  | nil =>
      intro d err h
      exact Except.noConfusion h
  | cons p rest ih =>
      intro d err h
      rw [List.foldlM_cons] at h
      by_cases hs : p.1 ∈ ids
      · have hc : ids.contains p.1 = true := by simpa using hs
        cases hinner : p.2.foldlM (addTarget ids) d with
        | ok d₁ =>
            have hentry : addEntry ids d p = .ok d₁ := by
              unfold addEntry
              rw [if_neg (not_not_intro hc)]
              exact hinner
            rw [hentry] at h
            obtain ⟨e, herr, hni, hocc⟩ := ih _ _ h
            refine ⟨e, herr, hni, ?_⟩
            rcases hocc with ⟨ts, hts⟩ | ⟨q, hq, he⟩
            · exact Or.inl ⟨ts, by simp [hts]⟩
            · exact Or.inr ⟨q, by simp [hq], he⟩
        | error e₁ =>
            have hentry : addEntry ids d p = .error e₁ := by
              unfold addEntry
              rw [if_neg (not_not_intro hc)]
              exact hinner
            rw [hentry] at h
            have herr : e₁ = err := by
              have : (Except.error e₁ : Except EngineError (Dict Int)) = .error err :=
                h ▸ rfl
              exact Except.error.inj this
            obtain ⟨t, ht, htn, he₁⟩ := addTargets_error_shape p.2 d e₁ hinner
            exact ⟨t, herr ▸ he₁, htn, Or.inr ⟨p, by simp, ht⟩⟩
      · have hc : ids.contains p.1 = false := by simpa using hs
        have hcond : ¬ (ids.contains p.1 = true) := by
          intro hcc
          rw [hc] at hcc
          exact Bool.false_ne_true hcc
        have hentry : addEntry ids d p = .error (.unknownNodeReference p.1) := by
          unfold addEntry
          rw [if_pos hcond]
        rw [hentry] at h
        have herr : err = .unknownNodeReference p.1 := by
          have : (Except.error (EngineError.unknownNodeReference p.1) :
              Except EngineError (Dict Int)) = .error err := h ▸ rfl
          exact (Except.error.inj this).symm
        exact ⟨p.1, herr, hs, Or.inl ⟨p.2, by simp⟩⟩

theorem addEntries_ok_valid {ids : List String} :
    ∀ (es : EdgeMap) (d d' : Dict Int),
      es.foldlM (addEntry ids) d = .ok d' → EdgesValid es ids := by
  intro es
  induction es with
  | nil =>
      intro d d' _ p hp
      simp at hp
  | cons q rest ih =>
      intro d d' h p hp
      rw [List.foldlM_cons] at h
      by_cases hs : q.1 ∈ ids
      · have hc : ids.contains q.1 = true := by simpa using hs
        cases hinner : q.2.foldlM (addTarget ids) d with
        | ok d₁ =>
            have hentry : addEntry ids d q = .ok d₁ := by
              unfold addEntry
              rw [if_neg (not_not_intro hc)]
              exact hinner
            rw [hentry] at h
            rcases List.mem_cons.mp hp with h' | h'
            · subst h'
              exact ⟨hs, addTargets_ok_valid p.2 d d₁ hinner⟩
            · exact ih _ _ h p h'
        | error e₁ =>
            exfalso
            have hentry : addEntry ids d q = .error e₁ := by
              unfold addEntry
              rw [if_neg (not_not_intro hc)]
              exact hinner
            rw [hentry] at h
            exact Except.noConfusion h
      · exfalso
        have hc : ids.contains q.1 = false := by simpa using hs
        have hcond : ¬ (ids.contains q.1 = true) := by
          intro hcc
          rw [hc] at hcc
          exact Bool.false_ne_true hcc
        have hentry : addEntry ids d q = .error (.unknownNodeReference q.1) := by
          unfold addEntry
          rw [if_pos hcond]
        rw [hentry] at h
        exact Except.noConfusion h

theorem hasDangling_not_valid {edges : EdgeMap} {ids : List String}
    (h : HasDangling edges ids) : ¬ EdgesValid edges ids := by
  obtain ⟨p, hp, hbad⟩ := h
  intro hvalid
  obtain ⟨h1, h2⟩ := hvalid p hp
  rcases hbad with hb | ⟨t, ht, htn⟩
  · exact hb h1
  · exact htn (h2 t ht)

/-- The invariant holds when the loop starts: in-degrees are fully
accumulated, the order is empty, and the queue holds exactly the
zero-in-degree ids in key order. -/
theorem kahnInitialInv {V : Type} {nodes : List (Node V)} {edges : EdgeMap}
    {indeg : Dict Int}
    (hids : (nodes.map (·.id)).Nodup)
    (hvalid : EdgesValid edges (nodes.map (·.id)))
    (hok : addEdgeIndegrees (nodes.map (·.id)) edges (initIndegree nodes) = .ok indeg) :
    KahnInv edges (nodes.map (·.id))
      ((indeg.filter (fun p => p.2 == 0)).map (·.1)) indeg [] := by
  have hcover : ∀ t ∈ nodes.map (·.id), t ∈ Dict.keys (initIndegree nodes) := by
    intro t ht
    rw [initIndegree_keys nodes hids]
    exact ht
  obtain ⟨d', hok', hkeys', hval'⟩ :=
    addEntries_ok edges (initIndegree nodes) hvalid hcover
  have hdd : d' = indeg := Except.ok.inj (hok'.symm.trans hok)
  subst hdd
  have hkeq : Dict.keys d' = nodes.map (·.id) := by
    rw [hkeys', initIndegree_keys nodes hids]
  have hwf : Dict.WF d' := by
    unfold Dict.WF
    rw [hkeq]
    exact hids
  have hval0 : ∀ v ∈ nodes.map (·.id),
      Dict.getD d' v 0 = (remainingIndeg edges [] v : Int) := by
    intro v hv
    rw [hval' v]
    have hg : Dict.get? (initIndegree nodes) v = some 0 := by
      rw [initIndegree_get?]
      simp [hv]
    simp [Dict.getD, hg]
  have hseed : ((d'.filter (fun p => p.2 == 0)).map (·.1)).Sublist (nodes.map (·.id)) := by
    have h1 : ((d'.filter (fun p => p.2 == 0)).map (·.1)).Sublist (d'.map (·.1)) :=
      List.Sublist.map _ (List.filter_sublist d')
    rw [show d'.map (·.1) = Dict.keys d' from rfl, hkeq] at h1
    exact h1
  refine ⟨hkeq, hval0, List.nodup_nil, ?_, by simp, ?_, ?_, by simp, by simp⟩
  · exact List.Nodup.sublist hseed hids
  · intro v hv
    exact hseed.subset hv
  · intro v hv
    constructor
    · intro hvs
      obtain ⟨p, hpf, hp1⟩ := List.mem_map.mp hvs
      obtain ⟨hpmem, hp0⟩ := List.mem_filter.mp hpf
      have hp2 : p.2 = 0 := by simpa using hp0
      have hget : Dict.get? d' v = some 0 := by
        have : p = (v, (0 : Int)) := by
          obtain ⟨a, b⟩ := p
          simp at hp1 hp2
          simp [hp1, hp2]
        rw [this] at hpmem
        exact Dict.get?_of_mem_of_wf hwf hpmem
      have hz : Dict.getD d' v 0 = 0 := by simp [Dict.getD, hget]
      have := hval0 v hv
      refine ⟨by simp, ?_⟩
      omega
    · rintro ⟨-, hrem⟩
      have hz : Dict.getD d' v 0 = 0 := by
        rw [hval0 v hv, hrem]
        simp
      have hsome : (Dict.get? d' v).isSome :=
        Dict.get?_isSome_of_mem d' v (by rw [hkeq]; exact hv)
      obtain ⟨x, hx⟩ := Option.isSome_iff_exists.mp hsome
      have hx0 : x = 0 := by
        have : Dict.getD d' v 0 = x := by simp [Dict.getD, hx]
        omega
      subst hx0
      have hmem : (v, (0 : Int)) ∈ d' := Dict.get?_mem hx
      exact List.mem_map.mpr ⟨(v, 0), List.mem_filter.mpr ⟨hmem, by simp⟩, rfl⟩

/-- Reduction of `topologicalSort` once in-degree accumulation succeeds. -/
theorem topologicalSort_eq_of_ok {V : Type} (nodes : List (Node V)) (edges : EdgeMap)
    {indeg : Dict Int}
    (hok : addEdgeIndegrees (nodes.map (·.id)) edges (initIndegree nodes) = .ok indeg) :
    topologicalSort nodes edges =
      (if (kahnLoop edges nodes.length
            ((indeg.filter (fun p => p.2 == 0)).map (·.1)) indeg []).length ≠ nodes.length
        then Except.error .cyclicGraph
        else Except.ok ((kahnLoop edges nodes.length
            ((indeg.filter (fun p => p.2 == 0)).map (·.1)) indeg []).filterMap
              (nodeMapGet nodes))) := by
  unfold topologicalSort
  rw [hok]

/-- Reduction of `topologicalSort` when in-degree accumulation fails. -/
theorem topologicalSort_eq_of_error {V : Type} (nodes : List (Node V)) (edges : EdgeMap)
    {err : EngineError}
    (herr : addEdgeIndegrees (nodes.map (·.id)) edges (initIndegree nodes) = .error err) :
    topologicalSort nodes edges = .error err := by
  unfold topologicalSort
  rw [herr]

/-! ### Chains, cycles, and the two Kahn end-states -/

theorem bool_and_split {a b : Bool} (h : (a && b) = true) : a = true ∧ b = true := by
  simp at h
  exact h

theorem bool_and_join {a b : Bool} (h1 : a = true) (h2 : b = true) : (a && b) = true := by
  simp [h1, h2]

theorem hasEdgeB_iff {edges : EdgeMap} {u v : String} :
    hasEdgeB edges u v = true ↔ ∃ ts, (u, ts) ∈ edges ∧ v ∈ ts := by
  unfold hasEdgeB
  rw [List.any_eq_true]
  constructor
  · rintro ⟨p, hp, hb⟩
    simp at hb
    obtain ⟨h1, h2⟩ := hb
    refine ⟨p.2, ?_, h2⟩
    have : (p.1, p.2) = p := rfl
    rw [← h1, this]
    exact hp
  · rintro ⟨ts, hmem, hv⟩
    exact ⟨(u, ts), hmem, by simp [hv]⟩

theorem isChain_cons_cons {edges : EdgeMap} (a b : String) (rest : List String) :
    isChain edges (a :: b :: rest) = (hasEdgeB edges a b && isChain edges (b :: rest)) :=
  rfl

theorem isChain_tail {edges : EdgeMap} {a : String} {l : List String}
    (h : isChain edges (a :: l) = true) : isChain edges l = true := by
  cases l with
  | nil => rfl
  | cons b rest =>
      rw [isChain_cons_cons] at h
      exact (bool_and_split h).2

theorem isChain_append_left {edges : EdgeMap} :
    ∀ (l₁ l₂ : List String), isChain edges (l₁ ++ l₂) = true → isChain edges l₁ = true := by
  intro l₁
  induction l₁ with
  | nil => intro l₂ _; rfl
  | cons a rest ih =>
      intro l₂ h
      cases rest with
      | nil => rfl
      | cons b rest' =>
          rw [List.cons_append, List.cons_append, isChain_cons_cons] at h
          obtain ⟨h1, h2⟩ := bool_and_split h
          rw [isChain_cons_cons]
          refine bool_and_join h1 ?_
          exact ih l₂ (by rw [List.cons_append]; exact h2)

theorem isChain_append_right {edges : EdgeMap} :
    ∀ (l₁ l₂ : List String), isChain edges (l₁ ++ l₂) = true → isChain edges l₂ = true := by
  intro l₁
  induction l₁ with
  | nil => intro l₂ h; exact h
  | cons a rest ih =>
      intro l₂ h
      rw [List.cons_append] at h
      exact ih l₂ (isChain_tail h)

theorem exists_dup_split {α : Type} :
    ∀ {l : List α}, ¬ l.Nodup →
      ∃ (a : α) (l₁ l₂ l₃ : List α), l = l₁ ++ a :: l₂ ++ a :: l₃ := by
  intro l
  induction l with
  | nil => intro h; exact absurd List.nodup_nil h
  | cons b t ih =>
      intro h
      rw [List.nodup_cons] at h
      push_neg at h
      by_cases hb : b ∈ t
      · obtain ⟨s, u, hsu⟩ := List.append_of_mem hb
        exact ⟨b, [], s, u, by simp [hsu]⟩
      · obtain ⟨a, l₁, l₂, l₃, heq⟩ := ih (h hb)
        exact ⟨a, b :: l₁, l₂, l₃, by simp [heq]⟩

/-- With an acyclic edge map, the final Kahn state has emitted every id:
otherwise the ids never emitted all keep an unemitted in-neighbour, which
pumps an arbitrarily long walk and forces a cycle by pigeonhole. -/
theorem kahn_complete {edges : EdgeMap} {ids : List String}
    (hvalid : EdgesValid edges ids) (hacyc : Acyclic edges)
    {indeg' : Dict Int} {orderF : List String}
    (inv : KahnInv edges ids [] indeg' orderF) :
    ∀ v ∈ ids, v ∈ orderF := by
  by_contra hc
  push_neg at hc
  obtain ⟨v₀, hv₀_ids, hv₀⟩ := hc
  have hstep : ∀ v, v ∈ ids → v ∉ orderF →
      ∃ u, u ∈ ids ∧ u ∉ orderF ∧ hasEdgeB edges u v = true := by
    intro v hv hvo
    have hnin : v ∉ ([] : List String) := by simp
    have hnot : ¬ (v ∉ orderF ∧ remainingIndeg edges orderF v = 0) :=
      fun hx => hnin ((inv.queueChar v hv).mpr hx)
    have hrem : remainingIndeg edges orderF v ≠ 0 := by tauto
    obtain ⟨u, ts, hmem, huo, hvts⟩ := remainingIndeg_pos (Nat.pos_of_ne_zero hrem)
    exact ⟨u, (hvalid _ hmem).1, huo, hasEdgeB_iff.mpr ⟨ts, hmem, hvts⟩⟩
  have hwalk : ∀ n : Nat, ∃ w : List String,
      w.length = n ∧ (∀ x ∈ w, x ∈ ids ∧ x ∉ orderF) ∧
      isChain edges (w ++ [v₀]) = true := by
    intro n
    induction n with
    | zero => exact ⟨[], rfl, by simp, rfl⟩
    | succ n ihn =>
        obtain ⟨w, hlen, hmem, hchain⟩ := ihn
        cases w with
        | nil =>
            obtain ⟨u, hu1, hu2, hedge⟩ := hstep v₀ hv₀_ids hv₀
            refine ⟨[u], by simp at hlen ⊢; omega, by simp [hu1, hu2], ?_⟩
            show (hasEdgeB edges u v₀ && isChain edges [v₀]) = true
            have hone : isChain edges [v₀] = true := rfl
            simp [hedge, hone]
        | cons hd wrest =>
            have hh := hmem hd (by simp)
            obtain ⟨u, hu1, hu2, hedge⟩ := hstep hd hh.1 hh.2
            refine ⟨u :: hd :: wrest, by simp at hlen ⊢; omega, ?_, ?_⟩
            · intro x hx
              rcases List.mem_cons.mp hx with h' | h'
              · subst h'; exact ⟨hu1, hu2⟩
              · exact hmem x h'
            · have hrw : (u :: hd :: wrest) ++ [v₀] = u :: hd :: (wrest ++ [v₀]) := by
                simp
              rw [hrw, isChain_cons_cons]
              refine bool_and_join hedge ?_
              have hrw2 : (hd :: wrest) ++ [v₀] = hd :: (wrest ++ [v₀]) := by simp
              rw [hrw2] at hchain
              exact hchain
  obtain ⟨w, hlen, hmemw, hchain⟩ := hwalk (ids.length + 1)
  have hwnodup : ¬ w.Nodup := by
    intro hnd
    have hsub : w ⊆ ids := fun x hx => (hmemw x hx).1
    have := (List.Nodup.subperm hnd hsub).length_le
    omega
  obtain ⟨a, l₁, l₂, l₃, heq⟩ := exists_dup_split hwnodup
  have hsplit : w ++ [v₀] = l₁ ++ ((a :: l₂ ++ [a]) ++ (l₃ ++ [v₀])) := by
    rw [heq]
    simp
  rw [hsplit] at hchain
  have hchain2 := isChain_append_right l₁ _ hchain
  have hcyc : isChain edges (a :: l₂ ++ [a]) = true :=
    isChain_append_left _ _ hchain2
  exact hacyc ⟨a, l₂, hcyc⟩

/-- If the final Kahn state emitted every id and the edge map has a cycle,
the edge-consistency of the emitted order is contradictory. -/
theorem kahn_cycle_incomplete {edges : EdgeMap} {ids : List String}
    (hvalid : EdgesValid edges ids)
    {indeg' : Dict Int} {orderF : List String}
    (inv : KahnInv edges ids [] indeg' orderF)
    (hcomplete : ∀ v ∈ ids, v ∈ orderF)
    (hcyc : HasCycle edges) : False := by
  obtain ⟨v, l, hchain⟩ := hcyc
  have hpo : ∀ u w, hasEdgeB edges u w = true →
      ∀ j, orderF.get? j = some w → ∃ i, i < j ∧ orderF.get? i = some u := by
    intro u w he j hj
    obtain ⟨ts, hmem, hvts⟩ := hasEdgeB_iff.mp he
    exact inv.orderConsistent j w hj u ts hmem hvts
  have hchain_po : ∀ (m : List String) (a b : String),
      isChain edges (a :: m ++ [b]) = true →
      ∀ j, orderF.get? j = some b → ∃ i, i < j ∧ orderF.get? i = some a := by
    intro m
    induction m with
    | nil =>
        intro a b hch j hj
        have he : hasEdgeB edges a b = true := by
          have : isChain edges (a :: [b]) = (hasEdgeB edges a b && isChain edges [b]) := rfl
          rw [show a :: [] ++ [b] = a :: [b] from rfl, this] at hch
          exact (bool_and_split hch).1
        exact hpo a b he j hj
    | cons c m' ih =>
        intro a b hch j hj
        have hrw : a :: (c :: m') ++ [b] = a :: c :: (m' ++ [b]) := by simp
        rw [hrw, isChain_cons_cons] at hch
        obtain ⟨h1, h2⟩ := bool_and_split hch
        have h2' : isChain edges (c :: m' ++ [b]) = true := by
          have : c :: m' ++ [b] = c :: (m' ++ [b]) := by simp
          rw [this]
          exact h2
        obtain ⟨i, hi, hgi⟩ := ih c b h2' j hj
        obtain ⟨i', hi', hgi'⟩ := hpo a c h1 i hgi
        exact ⟨i', by omega, hgi'⟩
  have hv_ids : v ∈ ids := by
    have hfirst : ∃ w, hasEdgeB edges v w = true := by
      cases l with
      | nil =>
          refine ⟨v, ?_⟩
          have : isChain edges (v :: [v]) = (hasEdgeB edges v v && isChain edges [v]) := rfl
          rw [show v :: [] ++ [v] = v :: [v] from rfl, this] at hchain
          exact (bool_and_split hchain).1
      | cons c l' =>
          refine ⟨c, ?_⟩
          have hrw : v :: (c :: l') ++ [v] = v :: c :: (l' ++ [v]) := by simp
          rw [hrw, isChain_cons_cons] at hchain
          exact (bool_and_split hchain).1
    obtain ⟨w, he⟩ := hfirst
    obtain ⟨ts, hmem, _⟩ := hasEdgeB_iff.mp he
    exact (hvalid _ hmem).1
  have hvo : v ∈ orderF := hcomplete v hv_ids
  obtain ⟨j, hj⟩ := List.mem_iff_get?.mp hvo
  have hnone : ∀ j, orderF.get? j = some v → False := by
    intro j
    induction j using Nat.strong_induction_on with
    | _ j ihj =>
        intro hj
        obtain ⟨i, hi, hgi⟩ := hchain_po l v v hchain j hj
        exact ihj i hi hgi
  exact hnone j hj

/-- `topologicalSort` on a valid acyclic workflow: succeeds with an order
that is a permutation of the node ids and respects every edge. -/
theorem topologicalSort_spec_ok {V : Type} {nodes : List (Node V)} {edges : EdgeMap}
    (hids : (nodes.map (·.id)).Nodup)
    (hkeys : (edges.map (·.1)).Nodup)
    (hvalid : EdgesValid edges (nodes.map (·.id)))
    (hacyc : Acyclic edges) :
    ∃ orderIds : List String,
      topologicalSort nodes edges = .ok (orderIds.filterMap (nodeMapGet nodes)) ∧
      orderIds.Perm (nodes.map (·.id)) ∧
      (∀ u ts v, (u, ts) ∈ edges → v ∈ ts →
        ∀ j, orderIds.get? j = some v → ∃ i, i < j ∧ orderIds.get? i = some u) := by
  obtain ⟨indeg, hok, -, -⟩ := addEntries_ok edges (initIndegree nodes) hvalid
    (by intro t ht; rw [initIndegree_keys nodes hids]; exact ht)
  have hok' : addEdgeIndegrees (nodes.map (·.id)) edges (initIndegree nodes) = .ok indeg :=
    hok
  have inv0 := kahnInitialInv hids hvalid hok'
  obtain ⟨indeg', invF⟩ := kahnLoop_spec hids hkeys hvalid nodes.length
    ((indeg.filter (fun p => p.2 == 0)).map (·.1)) indeg [] inv0 (by simp)
  have hcomplete := kahn_complete hvalid hacyc invF
  have hperm : (kahnLoop edges nodes.length
      ((indeg.filter (fun p => p.2 == 0)).map (·.1)) indeg []).Perm (nodes.map (·.id)) :=
    List.Subperm.antisymm
      (List.Nodup.subperm invF.orderNodup (fun v hv => invF.orderSub v hv))
      (List.Nodup.subperm hids (fun v hv => hcomplete v hv))
  have hlen : (kahnLoop edges nodes.length
      ((indeg.filter (fun p => p.2 == 0)).map (·.1)) indeg []).length = nodes.length := by
    have := hperm.length_eq
    simpa using this
  refine ⟨kahnLoop edges nodes.length
      ((indeg.filter (fun p => p.2 == 0)).map (·.1)) indeg [], ?_, hperm, ?_⟩
  · rw [topologicalSort_eq_of_ok nodes edges hok']
    rw [if_neg (by omega)]
  · intro u ts v hmem hvts j hj
    exact invF.orderConsistent j v hj u ts hmem hvts

/-- `topologicalSort` on a valid workflow with a cycle: raises `cyclicGraph`. -/
theorem topologicalSort_spec_cyclic {V : Type} {nodes : List (Node V)} {edges : EdgeMap}
    (hids : (nodes.map (·.id)).Nodup)
    (hkeys : (edges.map (·.1)).Nodup)
    (hvalid : EdgesValid edges (nodes.map (·.id)))
    (hcyc : HasCycle edges) :
    topologicalSort nodes edges = .error .cyclicGraph := by
  obtain ⟨indeg, hok, -, -⟩ := addEntries_ok edges (initIndegree nodes) hvalid
    (by intro t ht; rw [initIndegree_keys nodes hids]; exact ht)
  have hok' : addEdgeIndegrees (nodes.map (·.id)) edges (initIndegree nodes) = .ok indeg :=
    hok
  have inv0 := kahnInitialInv hids hvalid hok'
  obtain ⟨indeg', invF⟩ := kahnLoop_spec hids hkeys hvalid nodes.length
    ((indeg.filter (fun p => p.2 == 0)).map (·.1)) indeg [] inv0 (by simp)
  have hne : (kahnLoop edges nodes.length
      ((indeg.filter (fun p => p.2 == 0)).map (·.1)) indeg []).length ≠ nodes.length := by
    intro heq
    have hsub := List.Nodup.subperm invF.orderNodup (fun v hv => invF.orderSub v hv)
    have hperm := hsub.perm_of_length_le (by simp; omega)
    have hcomplete : ∀ v ∈ nodes.map (·.id), v ∈ kahnLoop edges nodes.length
        ((indeg.filter (fun p => p.2 == 0)).map (·.1)) indeg [] :=
      fun v hv => hperm.symm.subset hv
    exact kahn_cycle_incomplete hvalid invF hcomplete hcyc
  rw [topologicalSort_eq_of_ok nodes edges hok', if_pos hne]

/-- `topologicalSort` with a dangling edge endpoint: raises
`unknownNodeReference` naming a dangling id, whatever else the map holds. -/
theorem topologicalSort_spec_dangling {V : Type} {nodes : List (Node V)} {edges : EdgeMap}
    (hdang : HasDangling edges (nodes.map (·.id))) :
    ∃ e, topologicalSort nodes edges = .error (.unknownNodeReference e) ∧
      e ∉ nodes.map (·.id) ∧
      ((∃ ts, (e, ts) ∈ edges) ∨ ∃ p ∈ edges, e ∈ p.2) := by
  cases hres : addEdgeIndegrees (nodes.map (·.id)) edges (initIndegree nodes) with
  | ok indeg =>
      exfalso
      exact hasDangling_not_valid hdang (addEntries_ok_valid edges _ _ hres)
  | error err =>
      obtain ⟨e, herr, hni, hocc⟩ := addEntries_error_shape edges _ _ hres
      refine ⟨e, ?_, hni, hocc⟩
      rw [topologicalSort_eq_of_error nodes edges hres, herr]

/-! ### Properties of the run loop (lines 18-24) -/

theorem runGo_cons {V : Type} (reg : Registry V) (edges : EdgeMap) (input : Dict V)
    (n : Node V) (rest : List (Node V)) (results : Dict (Dict V))
    (log : List (String × Dict V)) :
    runGo reg edges input (n :: rest) results log =
      match Dict.get? reg n.type with
      | none => (log, .error (.handlerNotFound n.type))
      | some spec =>
          runGo reg edges input rest
            (Dict.set results n.id (spec.handler n.params (resolveInput n edges results input)))
            (log ++ [(n.id, resolveInput n edges results input)]) := rfl

theorem runGo_ok {V : Type} (reg : Registry V) (edges : EdgeMap) (input : Dict V) :
    ∀ (ns : List (Node V)) (results : Dict (Dict V)) (log : List (String × Dict V)),
      (∀ n ∈ ns, (Dict.get? reg n.type).isSome) →
      ∃ log' results', runGo reg edges input ns results log = (log ++ log', .ok results') ∧
        log'.map Prod.fst = ns.map (·.id) := by
  intro ns
  induction ns with
  | nil =>
      intro results log _
      exact ⟨[], results, by simp [runGo], by simp⟩
  | cons n rest ih =>
      intro results log hreg
      obtain ⟨spec, hspec⟩ := Option.isSome_iff_exists.mp (hreg n (by simp))
      obtain ⟨log', results', hrun, hmap⟩ := ih
        (Dict.set results n.id (spec.handler n.params (resolveInput n edges results input)))
        (log ++ [(n.id, resolveInput n edges results input)])
        (fun m hm => hreg m (by simp [hm]))
      refine ⟨(n.id, resolveInput n edges results input) :: log', results', ?_, by simp [hmap]⟩
      rw [runGo_cons, hspec]
      show runGo reg edges input rest
          (Dict.set results n.id (spec.handler n.params (resolveInput n edges results input)))
          (log ++ [(n.id, resolveInput n edges results input)]) = _
      rw [hrun]
      simp

theorem runGo_last {V : Type} (reg : Registry V) (edges : EdgeMap) (input : Dict V) :
    ∀ (ns : List (Node V)) (results : Dict (Dict V)) (log log' : List (String × Dict V))
      (results' : Dict (Dict V)),
      (∀ n ∈ ns, (Dict.get? reg n.type).isSome) →
      runGo reg edges input ns results log = (log', .ok results') →
      ∀ (n : Node V), ns.getLast? = some n →
      ∃ spec pp, Dict.get? reg n.type = some spec ∧
        log'.getLast? = some (n.id, pp) ∧
        Dict.get? results' n.id = some (spec.handler n.params pp) := by
  intro ns
  induction ns with
  | nil =>
      intro _ _ _ _ _ _ n h
      simp at h
  | cons m rest ih =>
      intro results log log' results' hreg hrun n hlast
      obtain ⟨spec, hspec⟩ := Option.isSome_iff_exists.mp (hreg m (by simp))
      rw [runGo_cons, hspec] at hrun
      have hrun' : runGo reg edges input rest
          (Dict.set results m.id (spec.handler m.params (resolveInput m edges results input)))
          (log ++ [(m.id, resolveInput m edges results input)]) = (log', .ok results') := hrun
      cases rest with
      | nil =>
          have hn : n = m := (by simpa using hlast : m = n).symm
          subst hn
          simp only [runGo, Prod.mk.injEq] at hrun'
          obtain ⟨h1, h2⟩ := hrun'
          have h2' : Dict.set results n.id
              (spec.handler n.params (resolveInput n edges results input)) = results' :=
            Except.ok.inj h2
          refine ⟨spec, resolveInput n edges results input, hspec, ?_, ?_⟩
          · rw [← h1]
            simp
          · rw [← h2', Dict.get?_set]
            simp
      | cons m2 rest2 =>
          have hlast' : (m2 :: rest2).getLast? = some n := by
            rwa [List.getLast?_cons_cons] at hlast
          exact ih _ _ _ _ (fun q hq => hreg q (by simp [hq])) hrun' n hlast'

/-- The node-output map after executing a prefix of the ordered node list:
the reference point for what each later node's handler receives. -/
def stepResults {V : Type} (reg : Registry V) (edges : EdgeMap) (input : Dict V)
    (results : Dict (Dict V)) (ns : List (Node V)) : Dict (Dict V) :=
  ns.foldl
    (fun results n =>
      match Dict.get? reg n.type with
      | none => results
      | some spec =>
          Dict.set results n.id (spec.handler n.params (resolveInput n edges results input)))
    results

theorem stepResults_cons {V : Type} (reg : Registry V) (edges : EdgeMap) (input : Dict V)
    (results : Dict (Dict V)) (n : Node V) (ns : List (Node V)) :
    stepResults reg edges input results (n :: ns) =
      match Dict.get? reg n.type with
      | none => stepResults reg edges input results ns
      | some spec =>
          stepResults reg edges input
            (Dict.set results n.id (spec.handler n.params (resolveInput n edges results input)))
            ns := by
  cases h : Dict.get? reg n.type with
  | none => simp [stepResults, List.foldl_cons, h]
  | some spec => simp [stepResults, List.foldl_cons, h]

theorem runGo_log_entry {V : Type} (reg : Registry V) (edges : EdgeMap) (input : Dict V) :
    ∀ (ns : List (Node V)) (results : Dict (Dict V)) (log log' : List (String × Dict V))
      (results' : Dict (Dict V)),
      (∀ n ∈ ns, (Dict.get? reg n.type).isSome) →
      runGo reg edges input ns results log = (log', .ok results') →
      ∀ (k : Nat) (n : Node V), ns.get? k = some n →
        log'.get? (log.length + k) =
          some (n.id, resolveInput n edges
            (stepResults reg edges input results (ns.take k)) input) := by
  intro ns
  induction ns with
  | nil =>
      intro _ _ _ _ _ _ k n h
      simp at h
  | cons m rest ih =>
      intro results log log' results' hreg hrun k n hk
      obtain ⟨spec, hspec⟩ := Option.isSome_iff_exists.mp (hreg m (by simp))
      rw [runGo_cons, hspec] at hrun
      have hrun' : runGo reg edges input rest
          (Dict.set results m.id (spec.handler m.params (resolveInput m edges results input)))
          (log ++ [(m.id, resolveInput m edges results input)]) = (log', .ok results') := hrun
      cases k with
      | zero =>
          have hn : n = m := (by simpa using hk : m = n).symm
          subst hn
          obtain ⟨log'', results'', hrun2, -⟩ := runGo_ok reg edges input rest
            (Dict.set results n.id (spec.handler n.params (resolveInput n edges results input)))
            (log ++ [(n.id, resolveInput n edges results input)])
            (fun q hq => hreg q (by simp [hq]))
          rw [hrun2] at hrun'
          have hlog : log' = (log ++ [(n.id, resolveInput n edges results input)]) ++ log'' :=
            ((Prod.mk.injEq _ _ _ _).mp hrun').1.symm
          rw [hlog]
          rw [Nat.add_zero]
          rw [List.get?_append (by simp)]
          rw [List.get?_concat_length]
          simp [stepResults]
      | succ k2 =>
          have hk2 : rest.get? k2 = some n := by simpa using hk
          have hrec := ih
            (Dict.set results m.id (spec.handler m.params (resolveInput m edges results input)))
            (log ++ [(m.id, resolveInput m edges results input)]) log' results'
            (fun q hq => hreg q (by simp [hq])) hrun' k2 n hk2
          have hidx : (log ++ [(m.id, resolveInput m edges results input)]).length + k2 =
              log.length + (k2 + 1) := by
            simp
            omega
          rw [hidx] at hrec
          have hsr : stepResults reg edges input results ((m :: rest).take (k2 + 1)) =
              stepResults reg edges input
                (Dict.set results m.id (spec.handler m.params (resolveInput m edges results input)))
                (rest.take k2) := by
            rw [List.take_succ_cons, stepResults_cons, hspec]
          rw [hsr]
          exact hrec

/-! ### Resolving node ids back to nodes, and concrete acyclicity -/

theorem nodeMapGet_skip {V : Type} (i : String) :
    ∀ (ns : List (Node V)) (acc : Option (Node V)), (∀ x ∈ ns, x.id ≠ i) →
      ns.foldl (fun acc n => if n.id == i then some n else acc) acc = acc := by
  intro ns
  induction ns with
  | nil => intro acc _; rfl
  | cons m rest ih =>
      intro acc h
      rw [List.foldl_cons]
      have hm : (m.id == i) = false := by
        simpa [beq_eq_false_iff_ne] using h m (by simp)
      rw [hm]
      show rest.foldl _ acc = acc
      exact ih acc (fun x hx => h x (by simp [hx]))

theorem nodeMapGet_eq_some {V : Type} {nodes : List (Node V)}
    (hids : (nodes.map (·.id)).Nodup) {n : Node V} (hn : n ∈ nodes) :
    nodeMapGet nodes n.id = some n := by
  induction nodes with
  | nil => simp at hn
  | cons m rest ih =>
      rcases List.mem_cons.mp hn with h | h
      · subst h
        have hfresh : ∀ x ∈ rest, x.id ≠ n.id := by
          intro x hx hc
          have hmm : x.id ∈ List.map (fun y => y.id) rest :=
            List.mem_map_of_mem (·.id) hx
          rw [hc] at hmm
          exact (List.nodup_cons.mp hids).1 hmm
        unfold nodeMapGet
        rw [List.foldl_cons]
        have : (n.id == n.id) = true := by simp
        rw [this]
        exact nodeMapGet_skip n.id rest (some n) hfresh
      · have hm : (m.id == n.id) = false := by
          have hne : m.id ≠ n.id := by
            intro hc
            have hmm : n.id ∈ List.map (fun y => y.id) rest :=
              List.mem_map_of_mem (·.id) h
            rw [← hc] at hmm
            exact (List.nodup_cons.mp hids).1 hmm
          simpa [beq_eq_false_iff_ne] using hne
        unfold nodeMapGet
        rw [List.foldl_cons, hm]
        exact ih (List.nodup_cons.mp hids).2 h

theorem nodeMapGet_mem {V : Type} {nodes : List (Node V)} {i : String} {n : Node V}
    (h : nodeMapGet nodes i = some n) : n ∈ nodes := by
  suffices hgen : ∀ (ns : List (Node V)) (acc : Option (Node V)),
      ns.foldl (fun acc m => if m.id == i then some m else acc) acc = some n →
      n ∈ ns ∨ acc = some n by
    rcases hgen nodes none h with h' | h'
    · exact h'
    · exact absurd h' (by simp)
  intro ns
  induction ns with
  | nil => intro acc h'; exact Or.inr h'
  | cons m rest ih =>
      intro acc h'
      rw [List.foldl_cons] at h'
      by_cases hm : m.id == i
      · rw [if_pos hm] at h'
        rcases ih (some m) h' with h'' | h''
        · exact Or.inl (by simp [h''])
        · have : m = n := Option.some.inj h''
          exact Or.inl (by simp [this])
      · rw [if_neg hm] at h'
        rcases ih acc h' with h'' | h''
        · exact Or.inl (by simp [h''])
        · exact Or.inr h''

theorem filterMap_nodeMapGet_map_id {V : Type} {nodes : List (Node V)}
    (hids : (nodes.map (·.id)).Nodup) :
    ∀ (orderIds : List String), (∀ v ∈ orderIds, v ∈ nodes.map (·.id)) →
      (orderIds.filterMap (nodeMapGet nodes)).map (·.id) = orderIds := by
  intro orderIds
  induction orderIds with
  | nil => intro _; rfl
  | cons v rest ih =>
      intro h
      obtain ⟨n, hn, hnid⟩ := List.mem_map.mp (h v (by simp))
      have hsome : nodeMapGet nodes v = some n := hnid ▸ nodeMapGet_eq_some hids hn
      rw [List.filterMap_cons, hsome]
      simp only [List.map_cons, hnid]
      rw [ih (fun x hx => h x (by simp [hx]))]

/-- A strictly edge-increasing rank witnesses acyclicity; lets concrete
workflows discharge `Acyclic` by `decide` over their finite edge lists. -/
theorem acyclic_of_rank {edges : EdgeMap} (rank : String → Nat)
    (h : ∀ p ∈ edges, ∀ t ∈ p.2, rank p.1 < rank t) : Acyclic edges := by
  rintro ⟨v, l, hchain⟩
  have hedge : ∀ u w, hasEdgeB edges u w = true → rank u < rank w := by
    intro u w he
    obtain ⟨ts, hmem, hw⟩ := hasEdgeB_iff.mp he
    exact h (u, ts) hmem w hw
  have key : ∀ (m : List String) (a b : String),
      isChain edges (a :: m ++ [b]) = true → rank a < rank b := by
    intro m
    induction m with
    | nil =>
        intro a b hch
        have : isChain edges (a :: [b]) = (hasEdgeB edges a b && isChain edges [b]) := rfl
        rw [show a :: [] ++ [b] = a :: [b] from rfl, this] at hch
        exact hedge a b (bool_and_split hch).1
    | cons c m' ih =>
        intro a b hch
        have hrw : a :: (c :: m') ++ [b] = a :: c :: (m' ++ [b]) := by simp
        rw [hrw, isChain_cons_cons] at hch
        obtain ⟨h1, h2⟩ := bool_and_split hch
        have h2' : isChain edges (c :: m' ++ [b]) = true := by
          have : c :: m' ++ [b] = c :: (m' ++ [b]) := by simp
          rw [this]
          exact h2
        exact Nat.lt_trans (hedge a c h1) (ih c b h2')
  exact absurd (key l v v hchain) (Nat.lt_irrefl _)

theorem restrictEdges_eq_self {edges : EdgeMap} {ids : List String}
    (hvalid : EdgesValid edges ids) : restrictEdges edges ids = edges := by
  unfold restrictEdges
  have hf : edges.filter (fun p => ids.contains p.1) = edges := by
    rw [List.filter_eq_self]
    intro p hp
    simpa using (hvalid p hp).1
  rw [hf]
  have hall : ∀ p ∈ edges, (fun p => (p.1, p.2.filter (fun t => ids.contains t))) p = p := by
    intro p hp
    have hps : p.2.filter (fun t => ids.contains t) = p.2 := by
      rw [List.filter_eq_self]
      intro t ht
      simpa using (hvalid p hp).2 t ht
    show (p.1, p.2.filter (fun t => ids.contains t)) = p
    rw [hps]
  calc edges.map (fun p => (p.1, p.2.filter (fun t => ids.contains t)))
      = edges.map id := List.map_congr_left hall
    _ = edges := List.map_id edges

/-- Reduction of `run` once the topological sort is known. -/
theorem run_eq_of_topo_ok {V : Type} (reg : Registry V) (wf : Workflow V) (input : Dict V)
    {ordered : List (Node V)}
    (h : topologicalSort wf.nodes wf.edges = .ok ordered) :
    run reg wf input =
      (match runGo reg wf.edges input ordered [] [] with
        | (log, .error e) => (log, .error e)
        | (log, .ok results) =>
            match ordered.getLast? with
            | none => (log, .ok input)
            | some lastNode => (log, .ok ((Dict.get? results lastNode.id).getD []))) := by
  unfold run
  rw [h]

theorem run_eq_of_topo_error {V : Type} (reg : Registry V) (wf : Workflow V) (input : Dict V)
    {e : EngineError}
    (h : topologicalSort wf.nodes wf.edges = .error e) :
    run reg wf input = ([], .error e) := by
  unfold run
  rw [h]

/-! ### The merge policy, field by field -/

theorem get?_update {V : Type} (other : Dict V) :
    ∀ (d : Dict V) (f : String),
      Dict.get? (Dict.update d other) f =
        match Dict.getLast? other f with
        | some v => some v
        | none => Dict.get? d f := by
  induction other with
  | nil => intro d f; rfl
  | cons p rest ih =>
      intro d f
      obtain ⟨k, v⟩ := p
      have hstep : Dict.update d ((k, v) :: rest) = Dict.update (Dict.set d k v) rest := rfl
      rw [hstep, ih]
      cases hl : Dict.getLast? rest f with
      | some w => simp [Dict.getLast?, hl]
      | none =>
          by_cases hf : f = k
          · subst hf
            simp [Dict.getLast?, hl, Dict.get?_set]
          · have hb : (k == f) = false := by
              simpa [beq_eq_false_iff_ne] using fun hc : k = f => hf hc.symm
            simp [Dict.getLast?, hl, hb, Dict.get?_set, hf]

/-- Modelled from the spec's words for the merge policy (claim C2): the
value a field receives is the one from the LAST upstream id (in edge-map
iteration order) whose computed output payload carries that field. -/
def lastWriterValue {V : Type} (edges : EdgeMap) (results : Dict (Dict V))
    (nodeId f : String) : Option V :=
  (incomingSources edges nodeId).foldl
    (fun acc s =>
      match Dict.getLast? ((Dict.get? results s).getD []) f with
      | some v => some v
      | none => acc)
    none

theorem foldl_update_get? {V : Type} (results : Dict (Dict V)) (f : String) :
    ∀ (srcs : List String) (acc : Dict V),
      Dict.get? (srcs.foldl (fun merged s =>
          Dict.update merged ((Dict.get? results s).getD [])) acc) f =
        srcs.foldl (fun a s =>
          match Dict.getLast? ((Dict.get? results s).getD []) f with
          | some v => some v
          | none => a) (Dict.get? acc f) := by
  intro srcs
  induction srcs with
  | nil => intro acc; rfl
  | cons s rest ih =>
      intro acc
      rw [List.foldl_cons, List.foldl_cons, ih, get?_update]

theorem mergeParentPayloads_get? {V : Type} (n : Node V) (edges : EdgeMap)
    (results : Dict (Dict V)) (f : String)
    (hne : incomingSources edges n.id ≠ []) :
    Dict.get? (mergeParentPayloads n edges results) f =
      lastWriterValue edges results n.id f := by
  unfold mergeParentPayloads lastWriterValue
  rw [if_neg (by simpa using hne)]
  rw [foldl_update_get?]
  rfl

theorem mergeParentPayloads_empty {V : Type} (n : Node V) (edges : EdgeMap)
    (results : Dict (Dict V))
    (hempty : ∀ s ∈ incomingSources edges n.id,
      (Dict.get? results s).getD [] = ([] : Dict V)) :
    mergeParentPayloads n edges results = [] := by
  unfold mergeParentPayloads
  by_cases hne : (incomingSources edges n.id).isEmpty
  · rw [if_pos hne]
  · rw [if_neg hne]
    suffices hgen : ∀ (srcs : List String),
        (∀ s ∈ srcs, (Dict.get? results s).getD [] = ([] : Dict V)) →
        ∀ (acc : Dict V), srcs.foldl (fun merged s =>
          Dict.update merged ((Dict.get? results s).getD [])) acc = acc from
      hgen _ hempty []
    intro srcs
    induction srcs with
    | nil => intro _ acc; rfl
    | cons s rest ih =>
        intro h acc
        rw [List.foldl_cons, h s (by simp)]
        exact ih (fun x hx => h x (by simp [hx])) acc

theorem mergeParentPayloads_of_no_incoming {V : Type} (n : Node V) (edges : EdgeMap)
    (results : Dict (Dict V)) (h : incomingSources edges n.id = []) :
    mergeParentPayloads n edges results = [] := by
  unfold mergeParentPayloads
  rw [if_pos (by simp [h])]

theorem resolveInput_eq {V : Type} (n : Node V) (edges : EdgeMap)
    (results : Dict (Dict V)) (input : Dict V) :
    resolveInput n edges results input =
      if (mergeParentPayloads n edges results).isEmpty then input
      else mergeParentPayloads n edges results := rfl

theorem resolveInput_of_merge_empty {V : Type} (n : Node V) (edges : EdgeMap)
    (results : Dict (Dict V)) (input : Dict V)
    (h : mergeParentPayloads n edges results = []) :
    resolveInput n edges results input = input := by
  rw [resolveInput_eq, if_pos (by simp [h])]

theorem resolveInput_of_merge_ne {V : Type} (n : Node V) (edges : EdgeMap)
    (results : Dict (Dict V)) (input : Dict V)
    (h : mergeParentPayloads n edges results ≠ []) :
    resolveInput n edges results input = mergeParentPayloads n edges results := by
  rw [resolveInput_eq, if_neg (by simpa [List.isEmpty_iff] using h)]

/-! ### Claim theorems for the graph executor -/

/-- Example registry, nodes and workflow used by the engine witnesses:
a three-node diamond-free DAG `A → B, A → C, B → C` with one handler
type that increments a counter field. -/
def exReg : Registry Nat :=
  [("t", ⟨"increment the field n", fun _ p => Dict.set p "n" (Dict.getD p "n" 0 + 1)⟩)]

def exNodes : List (Node Nat) :=
  [⟨"A", "t", []⟩, ⟨"B", "t", []⟩, ⟨"C", "t", []⟩]

def exWf : Workflow Nat := ⟨exNodes, [("A", ["B", "C"]), ("B", ["C"])]⟩

/-- C1: for every workflow whose edge map references only existing node
ids and describes an acyclic graph (together with the data-model
invariants every Python `Workflow` satisfies: node ids unique in the
workflow, edge-map keys unique because the edge map is a `dict`, and a
registered handler for every node type), `run` terminates successfully,
invokes the registered handler of every node exactly once — the
invocation log lists exactly the computed topological order, a
permutation of the node ids — in an order consistent with every edge
(each edge's source is invoked at an earlier position than its target),
and returns the output payload produced by the last node of the computed
topological order (the unchanged input for a zero-node workflow). -/
theorem c1_run_acyclic {V : Type} (reg : Registry V) (wf : Workflow V) (input : Dict V)
    (hids : (wf.nodes.map (·.id)).Nodup)
    (hkeys : (wf.edges.map (·.1)).Nodup)
    (hvalid : EdgesValid wf.edges (wf.nodes.map (·.id)))
    (hacyc : Acyclic wf.edges)
    (hreg : ∀ n ∈ wf.nodes, (Dict.get? reg n.type).isSome) :
    ∃ (ordered : List (Node V)) (log : List (String × Dict V)) (out : Dict V),
      topologicalSort wf.nodes wf.edges = Except.ok ordered ∧
      run reg wf input = (log, Except.ok out) ∧
      log.map Prod.fst = ordered.map (·.id) ∧
      (ordered.map (·.id)).Perm (wf.nodes.map (·.id)) ∧
      (∀ u ts v, (u, ts) ∈ wf.edges → v ∈ ts →
        ∀ j, (ordered.map (·.id)).get? j = some v →
          ∃ i, i < j ∧ (ordered.map (·.id)).get? i = some u) ∧
      (∀ n, ordered.getLast? = some n →
        ∃ spec pp, Dict.get? reg n.type = some spec ∧
          log.getLast? = some (n.id, pp) ∧ out = spec.handler n.params pp) ∧
      (ordered = [] → out = input) := by
  obtain ⟨orderIds, htopo, hperm, hcons⟩ := topologicalSort_spec_ok hids hkeys hvalid hacyc
  have hmapid : (orderIds.filterMap (nodeMapGet wf.nodes)).map (·.id) = orderIds :=
    filterMap_nodeMapGet_map_id hids orderIds (fun v hv => hperm.subset hv)
  have hordreg : ∀ n ∈ orderIds.filterMap (nodeMapGet wf.nodes),
      (Dict.get? reg n.type).isSome := by
    intro n hn
    obtain ⟨i, hi, hsome⟩ := List.mem_filterMap.mp hn
    exact hreg n (nodeMapGet_mem hsome)
  obtain ⟨log', results', hrunGo, hlogids⟩ :=
    runGo_ok reg wf.edges input (orderIds.filterMap (nodeMapGet wf.nodes)) [] [] hordreg
  rw [List.nil_append] at hrunGo
  have hrun0 : run reg wf input =
      (match (orderIds.filterMap (nodeMapGet wf.nodes)).getLast? with
        | none => (log', Except.ok input)
        | some lastNode =>
            (log', Except.ok ((Dict.get? results' lastNode.id).getD []))) := by
    rw [run_eq_of_topo_ok reg wf input htopo, hrunGo]
  cases hlast : (orderIds.filterMap (nodeMapGet wf.nodes)).getLast? with
  | none =>
      rw [hlast] at hrun0
      refine ⟨orderIds.filterMap (nodeMapGet wf.nodes), log', input, htopo, hrun0,
        hlogids, by rw [hmapid]; exact hperm, ?_, ?_, fun _ => rfl⟩
      · intro u ts v hm hv j hj
        rw [hmapid] at hj ⊢
        exact hcons u ts v hm hv j hj
      · intro n hn
        rw [hlast] at hn
        exact Option.noConfusion hn
  | some lastN =>
      obtain ⟨spec, pp, hspec, hloglast, hget⟩ :=
        runGo_last reg wf.edges input (orderIds.filterMap (nodeMapGet wf.nodes))
          [] [] log' results' hordreg hrunGo lastN hlast
      rw [hlast] at hrun0
      refine ⟨orderIds.filterMap (nodeMapGet wf.nodes), log',
        (Dict.get? results' lastN.id).getD [], htopo, hrun0,
        hlogids, by rw [hmapid]; exact hperm, ?_, ?_, ?_⟩
      · intro u ts v hm hv j hj
        rw [hmapid] at hj ⊢
        exact hcons u ts v hm hv j hj
      · intro n hn
        rw [hlast] at hn
        have hn' : lastN = n := Option.some.inj hn
        subst hn'
        exact ⟨spec, pp, hspec, hloglast, by rw [hget]; rfl⟩
      · intro h0
        rw [h0] at hlast
        exact Option.noConfusion hlast

/-- Witness for C1 on a concrete three-node DAG. -/
theorem c1_run_acyclic_witness :
    Acyclic exWf.edges ∧
    (∃ (ordered : List (Node Nat)) (log : List (String × Dict Nat)) (out : Dict Nat),
      topologicalSort exWf.nodes exWf.edges = Except.ok ordered ∧
      run exReg exWf [("n", 10)] = (log, Except.ok out) ∧
      log.map Prod.fst = ordered.map (·.id) ∧
      (ordered.map (·.id)).Perm (exWf.nodes.map (·.id)) ∧
      (∀ u ts v, (u, ts) ∈ exWf.edges → v ∈ ts →
        ∀ j, (ordered.map (·.id)).get? j = some v →
          ∃ i, i < j ∧ (ordered.map (·.id)).get? i = some u) ∧
      (∀ n, ordered.getLast? = some n →
        ∃ spec pp, Dict.get? exReg n.type = some spec ∧
          log.getLast? = some (n.id, pp) ∧ out = spec.handler n.params pp) ∧
      (ordered = [] → out = [("n", 10)])) := by
  have hacyc : Acyclic exWf.edges :=
    acyclic_of_rank (fun s => if s = "A" then 0 else if s = "B" then 1 else 2)
      (by decide)
  exact ⟨hacyc,
    c1_run_acyclic exReg exWf [("n", 10)] (by decide) (by decide)
      (by unfold EdgesValid; decide) hacyc (by decide)⟩

/-- Workflow used by the C3 counterexample: its edge map restricted to
the existing node ids contains the self-loop `A → A`, but the map also
names the nonexistent source `X`, so the unknown-reference check fires
before cycle detection. -/
def c3cexWf : Workflow Nat := ⟨[⟨"A", "t", []⟩], [("A", ["A"]), ("X", ["A"])]⟩

/-- Counterexample to C3 as stated: a workflow whose edge map restricted
to existing node ids contains a cycle, yet `run` fails with
`unknownNodeReference`, not `cyclicGraph`. -/
theorem c3_counterexample :
    HasCycle (restrictEdges c3cexWf.edges (c3cexWf.nodes.map (·.id))) ∧
    run ([] : Registry Nat) c3cexWf [] =
      ([], Except.error (.unknownNodeReference "X")) ∧
    (Except.error (EngineError.unknownNodeReference "X") :
        Except EngineError (Dict Nat)) ≠ Except.error EngineError.cyclicGraph := by
  refine ⟨⟨"A", [], by decide⟩, rfl, by simp⟩

/-- C3 (amended): for every workflow whose edge map references only
existing node ids and — restricted to those ids, which is then the whole
map — contains a cycle among one or more nodes, `run` fails with the
`cyclicGraph` condition and invokes no node handler (the invocation log
is empty).  Node ids and edge-map keys are distinct, as the Python data
model guarantees. -/
theorem c3_cycle_no_handler {V : Type} (reg : Registry V) (wf : Workflow V) (input : Dict V)
    (hids : (wf.nodes.map (·.id)).Nodup)
    (hkeys : (wf.edges.map (·.1)).Nodup)
    (hvalid : EdgesValid wf.edges (wf.nodes.map (·.id)))
    (hcyc : HasCycle (restrictEdges wf.edges (wf.nodes.map (·.id)))) :
    run reg wf input = ([], Except.error .cyclicGraph) := by
  have hcyc' : HasCycle wf.edges := by
    rwa [restrictEdges_eq_self hvalid] at hcyc
  exact run_eq_of_topo_error reg wf input
    (topologicalSort_spec_cyclic hids hkeys hvalid hcyc')

/-- Witness for the amended C3 on a concrete two-node cycle. -/
theorem c3_cycle_no_handler_witness :
    HasCycle (restrictEdges [("A", ["B"]), ("B", ["A"])]
      ((([⟨"A", "t", []⟩, ⟨"B", "t", []⟩] : List (Node Nat)).map (·.id)))) ∧
    run ([] : Registry Nat) ⟨[⟨"A", "t", []⟩, ⟨"B", "t", []⟩], [("A", ["B"]), ("B", ["A"])]⟩ [] =
      ([], Except.error .cyclicGraph) := by
  refine ⟨⟨"A", ["B"], by decide⟩, ?_⟩
  exact c3_cycle_no_handler ([] : Registry Nat)
    ⟨[⟨"A", "t", []⟩, ⟨"B", "t", []⟩], [("A", ["B"]), ("B", ["A"])]⟩ []
    (by decide) (by decide) (by unfold EdgesValid; decide) ⟨"A", ["B"], by decide⟩

/-- C4: for every workflow whose edge map names a source or target id
that is no node's id, `run` fails with `unknownNodeReference` naming a
dangling id (an id that is not a node id yet occurs in the edge map as a
source or inside a target list), before any handler is invoked (the
invocation log is empty). -/
theorem c4_dangling_reference {V : Type} (reg : Registry V) (wf : Workflow V) (input : Dict V)
    (hdang : HasDangling wf.edges (wf.nodes.map (·.id))) :
    ∃ e, run reg wf input = ([], Except.error (.unknownNodeReference e)) ∧
      e ∉ wf.nodes.map (·.id) ∧
      ((∃ ts, (e, ts) ∈ wf.edges) ∨ ∃ p ∈ wf.edges, e ∈ p.2) := by
  obtain ⟨e, htopo, hni, hocc⟩ := topologicalSort_spec_dangling hdang
  exact ⟨e, run_eq_of_topo_error reg wf input htopo, hni, hocc⟩

/-- Witness for C4 on a concrete workflow with a dangling target. -/
theorem c4_dangling_reference_witness :
    HasDangling [("A", ["X"])] ((([⟨"A", "t", []⟩] : List (Node Nat)).map (·.id))) ∧
    (∃ e, run ([] : Registry Nat) ⟨[⟨"A", "t", []⟩], [("A", ["X"])]⟩ [] =
        ([], Except.error (.unknownNodeReference e)) ∧
      e ∉ (([⟨"A", "t", []⟩] : List (Node Nat)).map (·.id)) ∧
      ((∃ ts, (e, ts) ∈ [("A", ["X"])]) ∨ ∃ p ∈ [("A", ["X"])], e ∈ p.2)) := by
  refine ⟨⟨("A", ["X"]), by decide, Or.inr ⟨"X", by decide, by decide⟩⟩, ?_⟩
  exact c4_dangling_reference ([] : Registry Nat) ⟨[⟨"A", "t", []⟩], [("A", ["X"])]⟩ []
    ⟨("A", ["X"]), by decide, Or.inr ⟨"X", by decide, by decide⟩⟩

/-- Registry and workflow used by the C2 counterexample and the C9
witness: node `A` feeds node `B` and `A`'s handler outputs an empty
payload, so `B`'s merged parent payload is empty. -/
def c2Reg : Registry Nat := [("t", ⟨"returns an empty payload", fun _ _ => []⟩)]

def c2Wf : Workflow Nat := ⟨[⟨"A", "t", []⟩, ⟨"B", "t", []⟩], [("A", ["B"])]⟩

/-- Counterexample to C2 as stated: node `B` has one upstream node, yet
its handler receives the run's input payload `{k: 0}`, not the (empty)
upstream merge the claim prescribes. -/
theorem c2_counterexample :
    incomingSources c2Wf.edges "B" ≠ [] ∧
    mergeParentPayloads (⟨"B", "t", []⟩ : Node Nat) c2Wf.edges
      (stepResults c2Reg c2Wf.edges [("k", 0)] [] [⟨"A", "t", []⟩]) = [] ∧
    (run c2Reg c2Wf [("k", 0)]).1.get? 1 = some ("B", [("k", 0)]) ∧
    (("k", 0) :: ([] : Dict Nat)) ≠ ([] : Dict Nat) := by
  refine ⟨by decide, rfl, rfl, by decide⟩

/-- C2 (amended): for every node processed by `run` — under the
data-model invariants and an acyclic, endpoint-valid edge map — the
handler receives the run's original input payload when no node targets
it; when one or more upstream nodes target it, the handler receives the
payload built by applying each upstream's already-computed output in
upstream-id (edge-map iteration) order with later upstreams overwriting
earlier ones per field (each field holds the last writer's value),
except that when that merged payload is empty the handler receives the
run's original input payload instead. -/
theorem c2_merge_last_writer_wins {V : Type} (reg : Registry V) (wf : Workflow V)
    (input : Dict V)
    (hids : (wf.nodes.map (·.id)).Nodup)
    (hkeys : (wf.edges.map (·.1)).Nodup)
    (hvalid : EdgesValid wf.edges (wf.nodes.map (·.id)))
    (hacyc : Acyclic wf.edges)
    (hreg : ∀ n ∈ wf.nodes, (Dict.get? reg n.type).isSome) :
    ∃ (ordered : List (Node V)) (log : List (String × Dict V)) (out : Dict V),
      topologicalSort wf.nodes wf.edges = Except.ok ordered ∧
      run reg wf input = (log, Except.ok out) ∧
      ∀ (k : Nat) (n : Node V), ordered.get? k = some n →
        ∃ pp, log.get? k = some (n.id, pp) ∧
          (incomingSources wf.edges n.id = [] → pp = input) ∧
          (incomingSources wf.edges n.id ≠ [] →
            (mergeParentPayloads n wf.edges
                (stepResults reg wf.edges input [] (ordered.take k)) = [] → pp = input) ∧
            (mergeParentPayloads n wf.edges
                (stepResults reg wf.edges input [] (ordered.take k)) ≠ [] →
              pp = mergeParentPayloads n wf.edges
                (stepResults reg wf.edges input [] (ordered.take k)) ∧
              ∀ f, Dict.get? pp f =
                lastWriterValue wf.edges
                  (stepResults reg wf.edges input [] (ordered.take k)) n.id f)) := by
  obtain ⟨orderIds, htopo, hperm, -⟩ := topologicalSort_spec_ok hids hkeys hvalid hacyc
  have hordreg : ∀ n ∈ orderIds.filterMap (nodeMapGet wf.nodes),
      (Dict.get? reg n.type).isSome := by
    intro n hn
    obtain ⟨i, hi, hsome⟩ := List.mem_filterMap.mp hn
    exact hreg n (nodeMapGet_mem hsome)
  obtain ⟨log', results', hrunGo, -⟩ :=
    runGo_ok reg wf.edges input (orderIds.filterMap (nodeMapGet wf.nodes)) [] [] hordreg
  rw [List.nil_append] at hrunGo
  have hrun0 : run reg wf input =
      (match (orderIds.filterMap (nodeMapGet wf.nodes)).getLast? with
        | none => (log', Except.ok input)
        | some lastNode =>
            (log', Except.ok ((Dict.get? results' lastNode.id).getD []))) := by
    rw [run_eq_of_topo_ok reg wf input htopo, hrunGo]
  have hmain : ∀ (k : Nat) (n : Node V),
      (orderIds.filterMap (nodeMapGet wf.nodes)).get? k = some n →
      ∃ pp, log'.get? k = some (n.id, pp) ∧
        (incomingSources wf.edges n.id = [] → pp = input) ∧
        (incomingSources wf.edges n.id ≠ [] →
          (mergeParentPayloads n wf.edges
              (stepResults reg wf.edges input []
                ((orderIds.filterMap (nodeMapGet wf.nodes)).take k)) = [] → pp = input) ∧
          (mergeParentPayloads n wf.edges
              (stepResults reg wf.edges input []
                ((orderIds.filterMap (nodeMapGet wf.nodes)).take k)) ≠ [] →
            pp = mergeParentPayloads n wf.edges
              (stepResults reg wf.edges input []
                ((orderIds.filterMap (nodeMapGet wf.nodes)).take k)) ∧
            ∀ f, Dict.get? pp f =
              lastWriterValue wf.edges
                (stepResults reg wf.edges input []
                  ((orderIds.filterMap (nodeMapGet wf.nodes)).take k)) n.id f)) := by
    intro k n hk
    have hentry := runGo_log_entry reg wf.edges input
      (orderIds.filterMap (nodeMapGet wf.nodes)) [] [] log' results' hordreg hrunGo k n hk
    rw [List.length_nil, Nat.zero_add] at hentry
    refine ⟨resolveInput n wf.edges
      (stepResults reg wf.edges input []
        ((orderIds.filterMap (nodeMapGet wf.nodes)).take k)) input, hentry, ?_, ?_⟩
    · intro hnone
      exact resolveInput_of_merge_empty n wf.edges _ input
        (mergeParentPayloads_of_no_incoming n wf.edges _ hnone)
    · intro hsome
      refine ⟨fun hemp => resolveInput_of_merge_empty n wf.edges _ input hemp, fun hne => ?_⟩
      have hpp := resolveInput_of_merge_ne n wf.edges
        (stepResults reg wf.edges input []
          ((orderIds.filterMap (nodeMapGet wf.nodes)).take k)) input hne
      refine ⟨hpp, fun f => ?_⟩
      rw [hpp]
      exact mergeParentPayloads_get? n wf.edges _ f hsome
  cases hlast : (orderIds.filterMap (nodeMapGet wf.nodes)).getLast? with
  | none =>
      rw [hlast] at hrun0
      exact ⟨orderIds.filterMap (nodeMapGet wf.nodes), log', input, htopo, hrun0, hmain⟩
  | some lastN =>
      rw [hlast] at hrun0
      exact ⟨orderIds.filterMap (nodeMapGet wf.nodes), log',
        (Dict.get? results' lastN.id).getD [], htopo, hrun0, hmain⟩

/-- Registry and workflow used by the C2-amended witness: `C` has the
two upstream nodes `A` and `B` whose outputs collide on field `y`, the
spec's own worked example (`A ↦ {x:1, y:2}`, `B ↦ {y:3, z:4}`, expected
input of `C`: `{x:1, y:3, z:4}`). -/
def c2wReg : Registry Nat :=
  [("a", ⟨"emit x and y", fun _ _ => [("x", 1), ("y", 2)]⟩),
   ("b", ⟨"emit y and z", fun _ _ => [("y", 3), ("z", 4)]⟩),
   ("c", ⟨"pass through", fun _ p => p⟩)]

def c2wWf : Workflow Nat :=
  ⟨[⟨"A", "a", []⟩, ⟨"B", "b", []⟩, ⟨"C", "c", []⟩], [("A", ["C"]), ("B", ["C"])]⟩

/-- Witness for the amended C2, checking the spec's worked
last-writer-wins example on concrete data. -/
theorem c2_merge_last_writer_wins_witness :
    (∃ (ordered : List (Node Nat)) (log : List (String × Dict Nat)) (out : Dict Nat),
      topologicalSort c2wWf.nodes c2wWf.edges = Except.ok ordered ∧
      run c2wReg c2wWf [("m", 7)] = (log, Except.ok out) ∧
      ∀ (k : Nat) (n : Node Nat), ordered.get? k = some n →
        ∃ pp, log.get? k = some (n.id, pp) ∧
          (incomingSources c2wWf.edges n.id = [] → pp = [("m", 7)]) ∧
          (incomingSources c2wWf.edges n.id ≠ [] →
            (mergeParentPayloads n c2wWf.edges
                (stepResults c2wReg c2wWf.edges [("m", 7)] [] (ordered.take k)) = [] →
              pp = [("m", 7)]) ∧
            (mergeParentPayloads n c2wWf.edges
                (stepResults c2wReg c2wWf.edges [("m", 7)] [] (ordered.take k)) ≠ [] →
              pp = mergeParentPayloads n c2wWf.edges
                (stepResults c2wReg c2wWf.edges [("m", 7)] [] (ordered.take k)) ∧
              ∀ f, Dict.get? pp f =
                lastWriterValue c2wWf.edges
                  (stepResults c2wReg c2wWf.edges [("m", 7)] [] (ordered.take k)) n.id f))) ∧
    (run c2wReg c2wWf [("m", 7)]).1.get? 2 =
      some ("C", [("x", 1), ("y", 3), ("z", 4)]) := by
  constructor
  · exact c2_merge_last_writer_wins c2wReg c2wWf [("m", 7)] (by decide) (by decide)
      (by unfold EdgesValid; decide)
      (acyclic_of_rank (fun s => if s = "C" then 1 else 0) (by decide))
      (by decide)
  · rfl

/-- C9: for every node with at least one upstream node, if every
upstream's already-computed output payload is empty, the executor hands
the node's handler the run's original input payload rather than the
empty merged payload. -/
theorem c9_empty_merge_falls_back_to_input {V : Type} (reg : Registry V) (wf : Workflow V)
    (input : Dict V)
    (hids : (wf.nodes.map (·.id)).Nodup)
    (hkeys : (wf.edges.map (·.1)).Nodup)
    (hvalid : EdgesValid wf.edges (wf.nodes.map (·.id)))
    (hacyc : Acyclic wf.edges)
    (hreg : ∀ n ∈ wf.nodes, (Dict.get? reg n.type).isSome) :
    ∃ (ordered : List (Node V)) (log : List (String × Dict V)) (out : Dict V),
      topologicalSort wf.nodes wf.edges = Except.ok ordered ∧
      run reg wf input = (log, Except.ok out) ∧
      ∀ (k : Nat) (n : Node V), ordered.get? k = some n →
        incomingSources wf.edges n.id ≠ [] →
        (∀ s ∈ incomingSources wf.edges n.id,
          (Dict.get? (stepResults reg wf.edges input [] (ordered.take k)) s).getD []
            = ([] : Dict V)) →
        log.get? k = some (n.id, input) := by
  obtain ⟨orderIds, htopo, hperm, -⟩ := topologicalSort_spec_ok hids hkeys hvalid hacyc
  have hordreg : ∀ n ∈ orderIds.filterMap (nodeMapGet wf.nodes),
      (Dict.get? reg n.type).isSome := by
    intro n hn
    obtain ⟨i, hi, hsome⟩ := List.mem_filterMap.mp hn
    exact hreg n (nodeMapGet_mem hsome)
  obtain ⟨log', results', hrunGo, -⟩ :=
    runGo_ok reg wf.edges input (orderIds.filterMap (nodeMapGet wf.nodes)) [] [] hordreg
  rw [List.nil_append] at hrunGo
  have hrun0 : run reg wf input =
      (match (orderIds.filterMap (nodeMapGet wf.nodes)).getLast? with
        | none => (log', Except.ok input)
        | some lastNode =>
            (log', Except.ok ((Dict.get? results' lastNode.id).getD []))) := by
    rw [run_eq_of_topo_ok reg wf input htopo, hrunGo]
  have hmain : ∀ (k : Nat) (n : Node V),
      (orderIds.filterMap (nodeMapGet wf.nodes)).get? k = some n →
      incomingSources wf.edges n.id ≠ [] →
      (∀ s ∈ incomingSources wf.edges n.id,
        (Dict.get? (stepResults reg wf.edges input []
          ((orderIds.filterMap (nodeMapGet wf.nodes)).take k)) s).getD [] = ([] : Dict V)) →
      log'.get? k = some (n.id, input) := by
    intro k n hk hne hempty
    have hentry := runGo_log_entry reg wf.edges input
      (orderIds.filterMap (nodeMapGet wf.nodes)) [] [] log' results' hordreg hrunGo k n hk
    rw [List.length_nil, Nat.zero_add] at hentry
    rw [hentry]
    rw [resolveInput_of_merge_empty n wf.edges _ input
      (mergeParentPayloads_empty n wf.edges _ hempty)]
  cases hlast : (orderIds.filterMap (nodeMapGet wf.nodes)).getLast? with
  | none =>
      rw [hlast] at hrun0
      exact ⟨orderIds.filterMap (nodeMapGet wf.nodes), log', input, htopo, hrun0, hmain⟩
  | some lastN =>
      rw [hlast] at hrun0
      exact ⟨orderIds.filterMap (nodeMapGet wf.nodes), log',
        (Dict.get? results' lastN.id).getD [], htopo, hrun0, hmain⟩

/-- Witness for C9 on the concrete empty-output workflow `A → B`. -/
theorem c9_empty_merge_falls_back_to_input_witness :
    (∃ (ordered : List (Node Nat)) (log : List (String × Dict Nat)) (out : Dict Nat),
      topologicalSort c2Wf.nodes c2Wf.edges = Except.ok ordered ∧
      run c2Reg c2Wf [("k", 0)] = (log, Except.ok out) ∧
      ∀ (k : Nat) (n : Node Nat), ordered.get? k = some n →
        incomingSources c2Wf.edges n.id ≠ [] →
        (∀ s ∈ incomingSources c2Wf.edges n.id,
          (Dict.get? (stepResults c2Reg c2Wf.edges [("k", 0)] [] (ordered.take k)) s).getD []
            = ([] : Dict Nat)) →
        log.get? k = some (n.id, [("k", 0)])) ∧
    (run c2Reg c2Wf [("k", 0)]).1.get? 1 = some ("B", [("k", 0)]) := by
  constructor
  · exact c9_empty_merge_falls_back_to_input c2Reg c2Wf [("k", 0)] (by decide) (by decide)
      (by unfold EdgesValid; decide)
      (acyclic_of_rank (fun s => if s = "B" then 1 else 0) (by decide))
      (by decide)
  · rfl

/-! ### Python values for the agent handler (`src/bot/nodes/agent.py`)

Node parameters and payload fields are arbitrary Python values; `PyVal`
is a closed sum of the shapes the handler inspects.  Python's
`isinstance(x, int)` is true for `bool`, which `isInt` mirrors; floats
only ever pass through validation, so they carry a `Rat`. -/

inductive PyVal where
  | vstr (s : String)
  | vint (n : Int)
  | vfloat (q : Rat)
  | vbool (b : Bool)
  | vnone
  | vlist (xs : List PyVal)
  | vdict (entries : List (String × PyVal))

namespace PyVal

/-- `isinstance(x, str)`. -/
def isStr : PyVal → Bool
  | .vstr _ => true
  | _ => false

/-- `isinstance(x, int)` — true for Python booleans as well. -/
def isInt : PyVal → Bool
  | .vint _ => true
  | .vbool _ => true
  | _ => false

/-- `isinstance(x, (int, float))`. -/
def isNumber : PyVal → Bool
  | .vint _ => true
  | .vbool _ => true
  | .vfloat _ => true
  | _ => false

/-- `x is None`. -/
def isNone : PyVal → Bool
  | .vnone => true
  | _ => false

/-- The integer content of a value that passed `isInt`. -/
def intVal : PyVal → Int
  | .vint n => n
  | .vbool b => if b then 1 else 0
  | _ => 0

/-- The string content of a value that passed `isStr`. -/
def strVal : PyVal → String
  | .vstr s => s
  | _ => ""

/-- `float(x)` on a value that passed `isNumber`. -/
def toFloat : PyVal → Rat
  | .vint n => (n : Rat)
  | .vbool b => if b then 1 else 0
  | .vfloat q => q
  | _ => 0

end PyVal

/-- Python `str()`.  Exact for strings, integers, booleans and `None`;
containers and floats get a placeholder rendering (no claim inspects the
stringification of a container). -/
def pyStr : PyVal → String
  | .vstr s => s
  | .vint n => toString n
  | .vbool b => if b then "True" else "False"
  | .vnone => "None"
  | .vfloat q => toString q
  | .vlist _ => "<list>"
  | .vdict _ => "<dict>"

/-- `params.get(k, fallback)`. -/
def paramOr (params : Dict PyVal) (k : String) (fallback : PyVal) : PyVal :=
  (Dict.get? params k).getD fallback

/-- The `ValueError` conditions the handler raises, split by the spec's
taxonomy: configuration errors (§4.3 validation) versus the missing
input field.  The missing-capability branch (`except ImportError`) never
fires in this embedding because the model-invocation oracle is total. -/
inductive AgentErr where
  | invalidAgentConfig (msg : String)
  | missingInputField (field : String)
deriving DecidableEq

/-- One sub-agent configuration normalized from `params["agents"]`
(`_normalize_agent_chain`'s output entries, minus the redundant
`system_prompt` copy Python stores in the same dict). -/
structure AgentCfg where
  name : String
  system_prompt : String
  model : String
  tools : List String
deriving DecidableEq

/-- One `_run_single_agent` invocation as handed to the external
LLM-invocation collaborator. -/
structure StepCall where
  model : String
  system_prompt : String
  user_prompt : String
  tools : List String
  num_ctx : Int
  num_predict : Int
  temperature : Rat
  max_tool_calls : Int
deriving DecidableEq

/-- One execution-trace entry (lines 192-199). -/
structure TraceEntry where
  name : String
  model : String
  tools : List String
  output : String
deriving DecidableEq

/-- A trace entry as stored into the output payload. -/
def traceToPyVal (t : TraceEntry) : PyVal :=
  .vdict [("name", .vstr t.name), ("model", .vstr t.model),
          ("tools", .vlist (t.tools.map .vstr)), ("output", .vstr t.output)]

/-- `_validate_common_settings` (lines 67-87). -/
def validateCommonSettings (model input_field num_ctx num_predict temperature max_tool_calls :
    PyVal) : Except AgentErr (String × String × Int × Int × Rat × Int) :=
  if ¬ (model.isStr = true ∧ model.strVal ≠ "") then
    .error (.invalidAgentConfig "agent.model must be a non-empty string")
  else if ¬ (input_field.isStr = true ∧ input_field.strVal ≠ "") then
    .error (.invalidAgentConfig "agent.input_field must be a non-empty string")
  else if ¬ (num_ctx.isInt = true ∧ 0 < num_ctx.intVal) then
    .error (.invalidAgentConfig "agent.num_ctx must be a positive integer")
  else if ¬ (num_predict.isInt = true ∧ 0 < num_predict.intVal) then
    .error (.invalidAgentConfig "agent.num_predict must be a positive integer")
  else if ¬ temperature.isNumber = true then
    .error (.invalidAgentConfig "agent.temperature must be a number")
  else if ¬ (max_tool_calls.isInt = true ∧ 0 < max_tool_calls.intVal) then
    .error (.invalidAgentConfig "agent.max_tool_calls must be a positive integer")
  else
    .ok (model.strVal, input_field.strVal, num_ctx.intVal, num_predict.intVal,
      temperature.toFloat, max_tool_calls.intVal)

/-- `isinstance(x, list) and all entries are str`, returning the names. -/
def checkToolList : PyVal → Option (List String)
  | .vlist xs => if xs.all (fun x => x.isStr) then some (xs.map PyVal.strVal) else none
  | _ => none

/-- One entry of `_normalize_agent_chain`'s loop (lines 103-127). -/
def normalizeEntry (idx : Nat) (default_model default_prompt : String)
    (default_tools : List String) (item : PyVal) : Except AgentErr AgentCfg :=
  match item with
  | .vdict d =>
      let name := (Dict.get? d "name").getD .vnone
      let system_prompt := (Dict.get? d "system_prompt").getD .vnone
      let model := (Dict.get? d "model").getD (.vstr default_model)
      let tools := (Dict.get? d "tools").getD (.vlist (default_tools.map .vstr))
      if ¬ (model.isStr = true ∧ model.strVal ≠ "") then
        .error (.invalidAgentConfig "Each langgraph_agent.agents[].model must be a non-empty string")
      else
        let sp := if system_prompt.isNone then PyVal.vstr default_prompt else system_prompt
        if ¬ sp.isStr = true then
          .error (.invalidAgentConfig "Each langgraph_agent.agents[].system_prompt must be a string")
        else
          match checkToolList tools with
          | none =>
              .error (.invalidAgentConfig "Each langgraph_agent.agents[].tools must be a list of strings")
          | some toolNames =>
              .ok ⟨(if name.isStr = true ∧ name.strVal ≠ "" then name.strVal
                    else "agent_" ++ toString (idx + 1)),
                   sp.strVal, model.strVal, toolNames⟩
  | _ => .error (.invalidAgentConfig "langgraph_agent.agents entries must be objects")

/-- The `for idx, item in enumerate(raw_agents)` loop of lines 103-127,
carrying the enumeration index. -/
def normalizeEntries (default_model default_prompt : String) (default_tools : List String) :
    Nat → List PyVal → Except AgentErr (List AgentCfg)
  | _, [] => .ok []
  | idx, item :: rest =>
      match normalizeEntry idx default_model default_prompt default_tools item with
      | .error e => .error e
      | .ok c =>
          match normalizeEntries default_model default_prompt default_tools (idx + 1) rest with
          | .error e => .error e
          | .ok cs => .ok (c :: cs)

/-- `_normalize_agent_chain` (lines 90-129). -/
def normalizeAgentChain (raw : PyVal) (default_model default_prompt : String)
    (default_tools : List String) : Except AgentErr (List AgentCfg) :=
  match raw with
  | .vnone => .ok []
  | .vlist [] => .error (.invalidAgentConfig "langgraph_agent.agents must be a non-empty list")
  | .vlist items => normalizeEntries default_model default_prompt default_tools 0 items
  | _ => .error (.invalidAgentConfig "langgraph_agent.agents must be a non-empty list")

/-- The process-wide defaults `app_config.agent_defaults()` supplies;
`tools` and `max_tool_calls` hold the result of the
`defaults.get("tools", [])` / `defaults.get("max_tool_calls", 6)`
lookups. -/
structure AgentDefaults where
  model : PyVal
  system_prompt : PyVal
  input_field : PyVal
  num_ctx : PyVal
  num_predict : PyVal
  temperature : PyVal
  tools : PyVal
  max_tool_calls : PyVal

/-- The node-level configuration once every check of lines 145-157 has
passed. -/
structure ResolvedConfig where
  model : String
  system_prompt : String
  input_field : String
  num_ctx : Int
  num_predict : Int
  temperature : Rat
  max_tool_calls : Int
  tools : List String
  chain : List AgentCfg
deriving DecidableEq

/-- Lines 134-157: parameter resolution with config-supplied defaults,
then validation in source order (system prompt, tool list, common
settings, agent chain). -/
def resolveConfig (dflt : AgentDefaults) (params : Dict PyVal) :
    Except AgentErr ResolvedConfig :=
  let model := paramOr params "model" dflt.model
  let system_prompt := paramOr params "system_prompt" dflt.system_prompt
  let input_field := paramOr params "input_field" dflt.input_field
  let num_ctx := paramOr params "num_ctx" dflt.num_ctx
  let num_predict := paramOr params "num_predict" dflt.num_predict
  let temperature := paramOr params "temperature" dflt.temperature
  let tools := paramOr params "tools" dflt.tools
  let max_tool_calls := paramOr params "max_tool_calls" dflt.max_tool_calls
  let agents := paramOr params "agents" .vnone
  if ¬ system_prompt.isStr = true then
    .error (.invalidAgentConfig "langgraph_agent.system_prompt must be a string")
  else
    match checkToolList tools with
    | none => .error (.invalidAgentConfig "langgraph_agent.tools must be a list of tool names")
    | some toolNames =>
        match validateCommonSettings model input_field num_ctx num_predict temperature
            max_tool_calls with
        | .error e => .error e
        | .ok (m, f, nc, np, temp, mtc) =>
            match normalizeAgentChain agents m system_prompt.strVal toolNames with
            | .error e => .error e
            | .ok chain => .ok ⟨m, system_prompt.strVal, f, nc, np, temp, mtc, toolNames, chain⟩

/-- A Python-whitespace character: exactly the code points for which
`str.isspace()` is true (and which a bare `str.strip()` therefore
removes) — the ASCII whitespace and separator controls `\t`, `\n`,
`\x0b`, `\x0c`, `\r`, `\x1c`-`\x1f`, the space, `\x85` (NEL), `\xa0`
(NBSP), and the Unicode space characters U+1680, U+2000-U+200A, U+2028,
U+2029, U+202F, U+205F and U+3000. -/
def pyWs (c : Char) : Bool :=
  let n := c.toNat
  n = 0x20 || (0x09 ≤ n && n ≤ 0x0d) || (0x1c ≤ n && n ≤ 0x1f) ||
  n = 0x85 || n = 0xa0 || n = 0x1680 || (0x2000 ≤ n && n ≤ 0x200a) ||
  n = 0x2028 || n = 0x2029 || n = 0x202f || n = 0x205f || n = 0x3000

/-- Python `s.strip()`, written over the character list so that it
evaluates by reduction. -/
def pyStrip (s : String) : String :=
  ⟨((s.data.dropWhile pyWs).reverse.dropWhile pyWs).reverse⟩

/-- The fixed template every step after the first receives (lines
174-178). -/
def chainPrompt (original_input running_context : String) : String :=
  "Original user request:\n" ++ original_input ++
  "\n\nCurrent context from previous agents:\n" ++ running_context ++
  "\n\nContinue and improve the answer."

/-- The chained-mode loop of lines 169-199: `idx` is the enumeration
index, the `String` state the running context.  Returns the final
running context, the model invocations made and the trace entries. -/
def runChainGo (oracle : StepCall → String) (original_input : String)
    (num_ctx num_predict : Int) (temperature : Rat) (max_tool_calls : Int) :
    List AgentCfg → Nat → String → String × List StepCall × List TraceEntry
  | [], _, rc => (rc, [], [])
  | cfg :: rest, idx, rc =>
      let step_input := if idx == 0 then rc else chainPrompt original_input rc
      let call : StepCall :=
        ⟨cfg.model, cfg.system_prompt, step_input, cfg.tools,
         num_ctx, num_predict, temperature, max_tool_calls⟩
      let output := oracle call
      let rc2 := if pyStrip output ≠ "" then output else rc
      let r := runChainGo oracle original_input num_ctx num_predict temperature
        max_tool_calls rest (idx + 1) rc2
      (r.1, call :: r.2.1, ⟨cfg.name, cfg.model, cfg.tools, output⟩ :: r.2.2)

/-- Chained mode, started with `running_context = original_input`. -/
def runChain (oracle : StepCall → String) (original_input : String)
    (num_ctx num_predict : Int) (temperature : Rat) (max_tool_calls : Int)
    (chain : List AgentCfg) : String × List StepCall × List TraceEntry :=
  runChainGo oracle original_input num_ctx num_predict temperature max_tool_calls
    chain 0 original_input

/-- Lines 218-227: the returned payload. -/
def assembleOutput (payload : Dict PyVal) (cfg : ResolvedConfig)
    (output_text : String) (trace : List TraceEntry) : Dict PyVal :=
  let merged := Dict.set payload "agent_output" (.vstr output_text)
  let merged := Dict.set merged "agent_model" (.vstr cfg.model)
  let merged := Dict.set merged "agent_num_ctx" (.vint cfg.num_ctx)
  let merged := Dict.set merged "agent_num_predict" (.vint cfg.num_predict)
  let merged := Dict.set merged "agent_tools" (.vlist (cfg.tools.map PyVal.vstr))
  if trace.isEmpty then merged
  else
    Dict.set (Dict.set merged "agent_trace" (.vlist (trace.map traceToPyVal)))
      "agent_count" (.vint trace.length)

/-- `langgraph_agent_handler` (lines 132-227).  The external model
invocation (`_run_single_agent`) is the `oracle`; the first component
lists every oracle invocation the handler performed, in order. -/
def langgraphAgentHandler (oracle : StepCall → String) (dflt : AgentDefaults)
    (params payload : Dict PyVal) : List StepCall × Except AgentErr (Dict PyVal) :=
  match resolveConfig dflt params with
  | .error e => ([], .error e)
  | .ok cfg =>
      let prompt_value := (Dict.get? payload cfg.input_field).getD .vnone
      if prompt_value.isNone then ([], .error (.missingInputField cfg.input_field))
      else
        let original_input := pyStr prompt_value
        let r :=
          if cfg.chain.isEmpty then
            let call : StepCall :=
              ⟨cfg.model, cfg.system_prompt, original_input, cfg.tools,
               cfg.num_ctx, cfg.num_predict, cfg.temperature, cfg.max_tool_calls⟩
            (oracle call, [call], ([] : List TraceEntry))
          else
            runChain oracle original_input cfg.num_ctx cfg.num_predict cfg.temperature
              cfg.max_tool_calls cfg.chain
        (r.2.1, .ok (assembleOutput payload cfg r.1 r.2.2))

/-! ### Text extraction from a structured model result (lines 9-26) -/

/-- The `content` attribute of the last message, as the code inspects
it: a plain string, a list of parts, or some other value. -/
inductive MsgContent where
  | asStr (s : String)
  | asList (items : List PyVal)
  | other

/-- A conversational message object: `content` is `none` when
`getattr(last, "content", None)` finds no attribute; `strRepr` models
`str(last)`. -/
structure PyMessage where
  content : Option MsgContent
  strRepr : String

/-- A model invocation's structured result: `messages` is `none` when
`result.get("messages")` is absent or not a list; `strRepr` models
`str(result)`. -/
structure AgentResult where
  messages : Option (List PyMessage)
  strRepr : String

/-- The text of one content part: a dict whose `"text"` field is a
string (line 21). -/
def partText : PyVal → Option String
  | .vdict d =>
      match Dict.get? d "text" with
      | some (.vstr t) => some t
      | _ => none
  | _ => none

/-- `_extract_text_from_agent_result` (lines 9-26). -/
def extractTextFromAgentResult (r : AgentResult) : String :=
  match r.messages with
  | none => r.strRepr
  | some [] => r.strRepr
  | some (m :: rest) =>
      let last := (m :: rest).getLast (List.cons_ne_nil m rest)
      match last.content with
      | some (.asStr s) => s
      | some (.asList items) =>
          let parts := items.filterMap partText
          if parts.isEmpty then last.strRepr
          else String.intercalate "\n" parts
      | _ => last.strRepr

/-! ### Claim theorems for the agent handler -/

theorem handler_eq_of_resolve_error (oracle : StepCall → String) (dflt : AgentDefaults)
    (params payload : Dict PyVal) {e : AgentErr}
    (hres : resolveConfig dflt params = .error e) :
    langgraphAgentHandler oracle dflt params payload = ([], .error e) := by
  unfold langgraphAgentHandler
  rw [hres]

theorem handler_eq_of_resolve_ok (oracle : StepCall → String) (dflt : AgentDefaults)
    (params payload : Dict PyVal) {cfg : ResolvedConfig}
    (hres : resolveConfig dflt params = .ok cfg) :
    langgraphAgentHandler oracle dflt params payload =
      (let prompt_value := (Dict.get? payload cfg.input_field).getD .vnone
       if prompt_value.isNone then ([], .error (.missingInputField cfg.input_field))
       else
         let original_input := pyStr prompt_value
         let r :=
           if cfg.chain.isEmpty then
             let call : StepCall :=
               ⟨cfg.model, cfg.system_prompt, original_input, cfg.tools,
                cfg.num_ctx, cfg.num_predict, cfg.temperature, cfg.max_tool_calls⟩
             (oracle call, [call], ([] : List TraceEntry))
           else
             runChain oracle original_input cfg.num_ctx cfg.num_predict cfg.temperature
               cfg.max_tool_calls cfg.chain
         (r.2.1, .ok (assembleOutput payload cfg r.1 r.2.2))) := by
  unfold langgraphAgentHandler
  rw [hres]

/-- C10: when the configured input field is looked up in the incoming
payload and the looked-up value is Python's `None` — whether the key is
present and bound to `None`, or absent (the `.get` default) — the
handler raises `MissingInputField` naming the field; the check is on the
looked-up value being `None`, not on key membership, and no model
invocation occurs (the invocation list is empty). -/
theorem c10_null_input_field (oracle : StepCall → String) (dflt : AgentDefaults)
    (params payload : Dict PyVal) (cfg : ResolvedConfig)
    (hres : resolveConfig dflt params = .ok cfg)
    (hnull : ((Dict.get? payload cfg.input_field).getD .vnone).isNone = true) :
    langgraphAgentHandler oracle dflt params payload =
      ([], .error (.missingInputField cfg.input_field)) := by
  rw [handler_eq_of_resolve_ok oracle dflt params payload hres]
  show (if ((Dict.get? payload cfg.input_field).getD .vnone).isNone then _ else _) = _
  rw [if_pos hnull]

/-- The config-file default settings (`config.py` lines 29-44). -/
def agDflt : AgentDefaults :=
  ⟨.vstr "qwen2.5:1.5b", .vstr "You are a helpful workflow agent.", .vstr "message",
   .vint 1024, .vint 128, .vfloat (1/5 : Rat),
   .vlist [.vstr "calculator", .vstr "utc_time"], .vint 6⟩

/-- A fixed oracle for the agent witnesses: echoes the user prompt. -/
def exOracle : StepCall → String := fun c => "out(" ++ c.user_prompt ++ ")"

/-- Witness for C10: the field is PRESENT and bound to `None`, and the
handler raises `MissingInputField` exactly as for an absent field. -/
theorem c10_null_input_field_witness :
    Dict.get? [("message", PyVal.vnone)] "message" = some PyVal.vnone ∧
    langgraphAgentHandler exOracle agDflt [] [("message", PyVal.vnone)] =
      ([], .error (.missingInputField "message")) ∧
    langgraphAgentHandler exOracle agDflt [] [] =
      ([], .error (.missingInputField "message")) := by
  refine ⟨rfl, ?_, ?_⟩
  · exact c10_null_input_field exOracle agDflt [] [("message", PyVal.vnone)]
      ⟨"qwen2.5:1.5b", "You are a helpful workflow agent.", "message", 1024, 128,
        (1/5 : Rat), 6, ["calculator", "utc_time"], []⟩ rfl rfl
  · exact c10_null_input_field exOracle agDflt [] []
      ⟨"qwen2.5:1.5b", "You are a helpful workflow agent.", "message", 1024, 128,
        (1/5 : Rat), 6, ["calculator", "utc_time"], []⟩ rfl rfl

/-- C7 (amended): text extraction takes the last message; plain-text
content is returned verbatim; list content yields the newline-join of
its parts' text fields (parts without a string text field skipped) when
at least one such field exists, and falls back to the LAST MESSAGE's
stringified form when none does or when the content is neither text nor
a list; the whole result's stringified form is returned only when the
message list itself is absent, not a list, or empty. -/
theorem c7_extract_text (r : AgentResult) :
    (r.messages = none → extractTextFromAgentResult r = r.strRepr) ∧
    (r.messages = some [] → extractTextFromAgentResult r = r.strRepr) ∧
    (∀ (msgs : List PyMessage) (h : msgs ≠ []), r.messages = some msgs →
      ((∀ s, (msgs.getLast h).content = some (.asStr s) →
          extractTextFromAgentResult r = s) ∧
       (∀ items, (msgs.getLast h).content = some (.asList items) →
         ((items.filterMap partText ≠ [] →
            extractTextFromAgentResult r =
              String.intercalate "\n" (items.filterMap partText)) ∧
          (items.filterMap partText = [] →
            extractTextFromAgentResult r = (msgs.getLast h).strRepr))) ∧
       (((msgs.getLast h).content = none ∨ (msgs.getLast h).content = some .other) →
         extractTextFromAgentResult r = (msgs.getLast h).strRepr))) := by
  obtain ⟨messages, strRepr⟩ := r
  cases messages with
  | none =>
      refine ⟨fun _ => rfl, fun h => by simp at h, ?_⟩
      intro msgs h hmsgs
      exact absurd hmsgs (by simp)
  | some msgs =>
      cases msgs with
      | nil =>
          refine ⟨fun h => by simp at h, fun _ => rfl, ?_⟩
          intro msgs h hmsgs
          have : msgs = [] := by simpa using hmsgs.symm
          exact absurd this h
      | cons m rest =>
          refine ⟨fun h => by simp at h, fun h => by simp at h, ?_⟩
          intro msgs h hmsgs
          have hm : msgs = m :: rest := by simpa using hmsgs.symm
          subst hm
          have hlast : (m :: rest).getLast h = (m :: rest).getLast (List.cons_ne_nil m rest) := rfl
          refine ⟨?_, ?_, ?_⟩
          · intro s hcontent
            unfold extractTextFromAgentResult
            simp only []
            rw [hlast] at hcontent
            rw [hcontent]
          · intro items hcontent
            rw [hlast] at hcontent
            constructor
            · intro hne
              unfold extractTextFromAgentResult
              simp only []
              rw [hcontent]
              simp only []
              rw [if_neg (by simpa [List.isEmpty_iff] using hne)]
            · intro hemp
              unfold extractTextFromAgentResult
              simp only []
              rw [hcontent]
              simp only []
              rw [if_pos (by simpa [List.isEmpty_iff] using hemp)]
          · intro hcontent
            rw [hlast] at hcontent
            rcases hcontent with hc | hc
            · unfold extractTextFromAgentResult
              simp only []
              rw [hc]
            · unfold extractTextFromAgentResult
              simp only []
              rw [hc]

/-- Counterexample to C7 as stated: a result whose last message's
content is neither text nor a list; extraction returns the LAST
MESSAGE's stringified form, not the result's stringified form the claim
prescribes. -/
theorem c7_counterexample :
    extractTextFromAgentResult
        ⟨some [⟨some .other, "last message repr"⟩], "result repr"⟩ =
      "last message repr" ∧
    "last message repr" ≠ "result repr" := by
  exact ⟨rfl, by decide⟩

/-- Witness for the amended C7 at concrete inputs for each branch. -/
theorem c7_extract_text_witness :
    extractTextFromAgentResult ⟨some [⟨some (.asStr "hello"), "m"⟩], "r"⟩ = "hello" ∧
    extractTextFromAgentResult ⟨none, "r"⟩ = "r" := by
  constructor
  · exact (c7_extract_text ⟨some [⟨some (.asStr "hello"), "m"⟩], "r"⟩).2.2
      [⟨some (.asStr "hello"), "m"⟩] (by simp) rfl |>.1 "hello" rfl
  · exact (c7_extract_text ⟨none, "r"⟩).1 rfl



/-! ### C6: invalid configuration rejection -/

/-- A step entry of `params["agents"]` that passes every entry-local
check of lines 103-127 for any valid chain defaults: it is an object,
an explicit `model` is a non-empty string, an explicit `system_prompt`
is a string (or `None`, replaced by the default), and an explicit
`tools` is a list of strings. -/
def stepEntryOkB (item : PyVal) : Bool :=
  match item with
  | .vdict d =>
      (match Dict.get? d "model" with
       | none => true
       | some mv => mv.isStr && mv.strVal != "") &&
      ((match Dict.get? d "system_prompt" with
       | none => true
       | some sp => sp.isNone || sp.isStr) &&
      (match Dict.get? d "tools" with
       | none => true
       | some t => (checkToolList t).isSome))
  | _ => false

theorem checkToolList_some_shape {t : PyVal} {names : List String}
    (h : checkToolList t = some names) : ∃ xs, t = .vlist xs := by
  cases t <;> simp [checkToolList] at h <;> exact ⟨_, rfl⟩

theorem validateCommonSettings_error_shape
    {model input_field num_ctx num_predict temperature max_tool_calls : PyVal} {e : AgentErr}
    (h : validateCommonSettings model input_field num_ctx num_predict temperature
      max_tool_calls = .error e) : ∃ msg, e = .invalidAgentConfig msg := by
  unfold validateCommonSettings at h
  split_ifs at h <;> first
    | exact ⟨_, (Except.error.inj h).symm⟩
    | exact Except.noConfusion h

theorem validateCommonSettings_ok_facts
    {model input_field num_ctx num_predict temperature max_tool_calls : PyVal}
    {out : String × String × Int × Int × Rat × Int}
    (h : validateCommonSettings model input_field num_ctx num_predict temperature
      max_tool_calls = .ok out) :
    (model.isStr = true ∧ model.strVal ≠ "") ∧
    (input_field.isStr = true ∧ input_field.strVal ≠ "") ∧
    (num_ctx.isInt = true ∧ 0 < num_ctx.intVal) ∧
    (num_predict.isInt = true ∧ 0 < num_predict.intVal) ∧
    temperature.isNumber = true ∧
    (max_tool_calls.isInt = true ∧ 0 < max_tool_calls.intVal) := by
  unfold validateCommonSettings at h
  split_ifs at h with h1 h2 h3 h4 h5 h6 <;> try exact Except.noConfusion h
  exact ⟨h1, h2, h3, h4, h5, h6⟩

theorem normalizeEntry_error_shape {idx : Nat} {dm dp : String} {dt : List String}
    {item : PyVal} {e : AgentErr}
    (h : normalizeEntry idx dm dp dt item = .error e) : ∃ msg, e = .invalidAgentConfig msg := by
  unfold normalizeEntry at h
  cases item <;> try exact ⟨_, (Except.error.inj h).symm⟩
  simp only at h
  split_ifs at h <;> try exact ⟨_, (Except.error.inj h).symm⟩
  all_goals split at h <;> first
    | exact ⟨_, (Except.error.inj h).symm⟩
    | exact Except.noConfusion h

theorem normalizeEntry_okB {idx : Nat} {dm dp : String} {dt : List String}
    {item : PyVal} {c : AgentCfg}
    (h : normalizeEntry idx dm dp dt item = .ok c) : stepEntryOkB item = true := by
  cases item <;> try exact Except.noConfusion h
  rename_i d
  unfold normalizeEntry at h
  unfold stepEntryOkB
  simp only at h ⊢
  cases hm : Dict.get? d "model" <;>
    cases hs : Dict.get? d "system_prompt" <;>
      cases ht : Dict.get? d "tools" <;>
        simp only [hm, hs, ht, Option.getD_some, Option.getD_none] at h ⊢ <;>
          split_ifs at h <;> try exact Except.noConfusion h
  all_goals
    (try (split at h <;> try exact Except.noConfusion h)) <;>
    simp_all [Bool.and_eq_true, bne_iff_ne]

theorem normalizeEntries_error_shape {dm dp : String} {dt : List String} :
    ∀ {l : List PyVal} {idx : Nat} {e : AgentErr},
      normalizeEntries dm dp dt idx l = .error e → ∃ msg, e = .invalidAgentConfig msg := by
  intro l
  induction l with
  | nil => intro idx e h; exact Except.noConfusion h
  | cons x xs ih =>
      intro idx e h
      unfold normalizeEntries at h
      cases hx : normalizeEntry idx dm dp dt x with
      | error e0 =>
          rw [hx] at h
          exact (Except.error.inj h) ▸ normalizeEntry_error_shape hx
      | ok c =>
          rw [hx] at h
          cases hr : normalizeEntries dm dp dt (idx + 1) xs with
          | error e1 =>
              rw [hr] at h
              exact (Except.error.inj h) ▸ ih hr
          | ok cs => rw [hr] at h; exact Except.noConfusion h

theorem normalizeEntries_ok_all {dm dp : String} {dt : List String} :
    ∀ {l : List PyVal} {idx : Nat} {out : List AgentCfg},
      normalizeEntries dm dp dt idx l = .ok out →
      ∀ it ∈ l, stepEntryOkB it = true := by
  intro l
  induction l with
  | nil => intro idx out _ it hit; exact absurd hit (List.not_mem_nil it)
  | cons x xs ih =>
      intro idx out h it hit
      unfold normalizeEntries at h
      cases hx : normalizeEntry idx dm dp dt x with
      | error e0 => rw [hx] at h; exact Except.noConfusion h
      | ok c =>
          rw [hx] at h
          cases hr : normalizeEntries dm dp dt (idx + 1) xs with
          | error e1 => rw [hr] at h; exact Except.noConfusion h
          | ok cs =>
              rcases List.mem_cons.mp hit with hh | hh
              · exact hh ▸ normalizeEntry_okB hx
              · exact ih hr it hh

theorem normalizeAgentChain_error_shape {raw : PyVal} {dm dp : String} {dt : List String}
    {e : AgentErr} (h : normalizeAgentChain raw dm dp dt = .error e) :
    ∃ msg, e = .invalidAgentConfig msg := by
  unfold normalizeAgentChain at h
  cases raw <;> try exact ⟨_, (Except.error.inj h).symm⟩
  · exact Except.noConfusion h
  · rename_i items
    cases items with
    | nil => exact ⟨_, (Except.error.inj h).symm⟩
    | cons x xs => exact normalizeEntries_error_shape h

theorem normalizeAgentChain_ok_facts {raw : PyVal} {dm dp : String} {dt : List String}
    {chain : List AgentCfg} (h : normalizeAgentChain raw dm dp dt = .ok chain) :
    raw ≠ .vlist [] ∧
    ∀ items, raw = .vlist items → ∀ it ∈ items, stepEntryOkB it = true := by
  unfold normalizeAgentChain at h
  cases raw <;> try exact Except.noConfusion h
  · refine ⟨by simp, ?_⟩
    intro items hitems
    exact PyVal.noConfusion hitems
  · rename_i items
    cases items with
    | nil => exact Except.noConfusion h
    | cons x xs =>
        refine ⟨by simp, ?_⟩
        intro items' hitems' it hit
        have : items' = x :: xs := (PyVal.vlist.inj hitems').symm
        exact normalizeEntries_ok_all h it (this ▸ hit)

theorem resolveConfig_error_shape {dflt : AgentDefaults} {params : Dict PyVal} {e : AgentErr}
    (h : resolveConfig dflt params = .error e) : ∃ msg, e = .invalidAgentConfig msg := by
  unfold resolveConfig at h
  dsimp only at h
  split_ifs at h with hsp
  · split at h
    · exact ⟨_, (Except.error.inj h).symm⟩
    · split at h
      · rename_i e0 hval
        exact (Except.error.inj h) ▸ validateCommonSettings_error_shape hval
      · split at h
        · rename_i e1 hchain
          exact (Except.error.inj h) ▸ normalizeAgentChain_error_shape hchain
        · exact Except.noConfusion h
  · exact ⟨_, (Except.error.inj h).symm⟩

theorem resolveConfig_ok_facts {dflt : AgentDefaults} {params : Dict PyVal} {cfg : ResolvedConfig}
    (h : resolveConfig dflt params = .ok cfg) :
    ((paramOr params "model" dflt.model).isStr = true ∧
      (paramOr params "model" dflt.model).strVal ≠ "") ∧
    ((paramOr params "input_field" dflt.input_field).isStr = true ∧
      (paramOr params "input_field" dflt.input_field).strVal ≠ "") ∧
    ((paramOr params "num_ctx" dflt.num_ctx).isInt = true ∧
      0 < (paramOr params "num_ctx" dflt.num_ctx).intVal) ∧
    ((paramOr params "num_predict" dflt.num_predict).isInt = true ∧
      0 < (paramOr params "num_predict" dflt.num_predict).intVal) ∧
    (paramOr params "temperature" dflt.temperature).isNumber = true ∧
    ((paramOr params "max_tool_calls" dflt.max_tool_calls).isInt = true ∧
      0 < (paramOr params "max_tool_calls" dflt.max_tool_calls).intVal) ∧
    (∃ xs, paramOr params "tools" dflt.tools = .vlist xs) ∧
    paramOr params "agents" .vnone ≠ .vlist [] ∧
    (∀ items, paramOr params "agents" .vnone = .vlist items →
      ∀ it ∈ items, stepEntryOkB it = true) := by
  unfold resolveConfig at h
  dsimp only at h
  split_ifs at h with hsp
  · split at h
    · exact Except.noConfusion h
    · rename_i toolNames hct
      split at h
      · exact Except.noConfusion h
      · rename_i m f nc np temp mtc hval
        split at h
        · exact Except.noConfusion h
        · rename_i chain hchain
          obtain ⟨hv1, hv2, hv3, hv4, hv5, hv6⟩ := validateCommonSettings_ok_facts hval
          obtain ⟨hne, hall⟩ := normalizeAgentChain_ok_facts hchain
          exact ⟨hv1, hv2, hv3, hv4, hv5, hv6, checkToolList_some_shape hct, hne, hall⟩

/-- C6: whenever the node parameters (after falling back to the
process-wide defaults, exactly as the handler looks them up) are invalid
in any of the claim's senses — non-string or zero-length model name,
zero-length input-field name, non-integer or non-positive context window
or max-generated-tokens, non-numeric temperature, non-integer or
non-positive tool-call budget, non-list tool field, empty explicit step
list, or a step entry failing an entry-local check — the handler returns
the `InvalidAgentConfig` condition and performs no model invocation (its
invocation list is empty). -/
theorem c6_invalid_config_no_model_call (oracle : StepCall → String) (dflt : AgentDefaults)
    (params payload : Dict PyVal)
    (hbad :
      (paramOr params "model" dflt.model).isStr = false ∨
      paramOr params "model" dflt.model = .vstr "" ∨
      paramOr params "input_field" dflt.input_field = .vstr "" ∨
      (paramOr params "num_ctx" dflt.num_ctx).isInt = false ∨
      (paramOr params "num_ctx" dflt.num_ctx).intVal ≤ 0 ∨
      (paramOr params "num_predict" dflt.num_predict).isInt = false ∨
      (paramOr params "num_predict" dflt.num_predict).intVal ≤ 0 ∨
      (paramOr params "temperature" dflt.temperature).isNumber = false ∨
      (paramOr params "max_tool_calls" dflt.max_tool_calls).isInt = false ∨
      (paramOr params "max_tool_calls" dflt.max_tool_calls).intVal ≤ 0 ∨
      (∀ xs, paramOr params "tools" dflt.tools ≠ .vlist xs) ∨
      paramOr params "agents" .vnone = .vlist [] ∨
      (∃ items it, paramOr params "agents" .vnone = .vlist items ∧ it ∈ items ∧
        stepEntryOkB it = false)) :
    ∃ msg, langgraphAgentHandler oracle dflt params payload =
      ([], .error (.invalidAgentConfig msg)) := by
  cases hres : resolveConfig dflt params with
  | error e =>
      obtain ⟨msg, hmsg⟩ := resolveConfig_error_shape hres
      exact ⟨msg, by
        rw [handler_eq_of_resolve_error oracle dflt params payload hres, hmsg]⟩
  | ok cfg =>
      exfalso
      obtain ⟨⟨h1s, h1n⟩, ⟨h2s, h2n⟩, ⟨h3i, h3p⟩, ⟨h4i, h4p⟩, h5n, ⟨h6i, h6p⟩,
        ⟨xs, hxs⟩, hne, hall⟩ := resolveConfig_ok_facts hres
      rcases hbad with h | h | h | h | h | h | h | h | h | h | h | h | h
      · rw [h] at h1s; exact Bool.noConfusion h1s
      · rw [h] at h1n; exact h1n rfl
      · rw [h] at h2n; exact h2n rfl
      · rw [h] at h3i; exact Bool.noConfusion h3i
      · exact absurd h3p (not_lt.mpr h)
      · rw [h] at h4i; exact Bool.noConfusion h4i
      · exact absurd h4p (not_lt.mpr h)
      · rw [h] at h5n; exact Bool.noConfusion h5n
      · rw [h] at h6i; exact Bool.noConfusion h6i
      · exact absurd h6p (not_lt.mpr h)
      · exact h xs hxs
      · exact hne h
      · obtain ⟨items, it, hitems, hmem, hfalse⟩ := h
        rw [hall items hitems it hmem] at hfalse
        exact Bool.noConfusion hfalse

/-- Witness for C6: an explicit zero-length model name makes the handler
fail with the documented message and an empty invocation list. -/
theorem c6_invalid_config_no_model_call_witness :
    (∃ msg, langgraphAgentHandler exOracle agDflt [("model", PyVal.vstr "")]
      [("message", PyVal.vstr "hi")] = ([], .error (.invalidAgentConfig msg))) ∧
    langgraphAgentHandler exOracle agDflt [("model", PyVal.vstr "")]
      [("message", PyVal.vstr "hi")] =
      ([], .error (.invalidAgentConfig "agent.model must be a non-empty string")) := by
  refine ⟨c6_invalid_config_no_model_call exOracle agDflt _ _ (Or.inr (Or.inl rfl)), ?_⟩
  rfl

/-! ### C8: output payload contract -/

theorem assembleOutput_frame (payload : Dict PyVal) (cfg : ResolvedConfig)
    (out : String) (trace : List TraceEntry) (k : String)
    (h1 : k ≠ "agent_output") (h2 : k ≠ "agent_model") (h3 : k ≠ "agent_num_ctx")
    (h4 : k ≠ "agent_num_predict") (h5 : k ≠ "agent_tools") (h6 : k ≠ "agent_trace")
    (h7 : k ≠ "agent_count") :
    Dict.get? (assembleOutput payload cfg out trace) k = Dict.get? payload k := by
  unfold assembleOutput
  dsimp only
  split
  · simp [Dict.get?_set, h1, h2, h3, h4, h5]
  · simp [Dict.get?_set, h1, h2, h3, h4, h5, h6, h7]

theorem assembleOutput_agent_output (payload : Dict PyVal) (cfg : ResolvedConfig)
    (out : String) (trace : List TraceEntry) :
    Dict.get? (assembleOutput payload cfg out trace) "agent_output" =
      some (.vstr out) := by
  unfold assembleOutput
  dsimp only
  split <;> simp [Dict.get?_set]

theorem assembleOutput_agent_model (payload : Dict PyVal) (cfg : ResolvedConfig)
    (out : String) (trace : List TraceEntry) :
    Dict.get? (assembleOutput payload cfg out trace) "agent_model" =
      some (.vstr cfg.model) := by
  unfold assembleOutput
  dsimp only
  split <;> simp [Dict.get?_set]

theorem assembleOutput_agent_num_ctx (payload : Dict PyVal) (cfg : ResolvedConfig)
    (out : String) (trace : List TraceEntry) :
    Dict.get? (assembleOutput payload cfg out trace) "agent_num_ctx" =
      some (.vint cfg.num_ctx) := by
  unfold assembleOutput
  dsimp only
  split <;> simp [Dict.get?_set]

theorem assembleOutput_agent_num_predict (payload : Dict PyVal) (cfg : ResolvedConfig)
    (out : String) (trace : List TraceEntry) :
    Dict.get? (assembleOutput payload cfg out trace) "agent_num_predict" =
      some (.vint cfg.num_predict) := by
  unfold assembleOutput
  dsimp only
  split <;> simp [Dict.get?_set]

theorem assembleOutput_agent_tools (payload : Dict PyVal) (cfg : ResolvedConfig)
    (out : String) (trace : List TraceEntry) :
    Dict.get? (assembleOutput payload cfg out trace) "agent_tools" =
      some (.vlist (cfg.tools.map PyVal.vstr)) := by
  unfold assembleOutput
  dsimp only
  split <;> simp [Dict.get?_set]

theorem assembleOutput_trace_nil (payload : Dict PyVal) (cfg : ResolvedConfig)
    (out : String) :
    Dict.get? (assembleOutput payload cfg out []) "agent_trace" =
      Dict.get? payload "agent_trace" ∧
    Dict.get? (assembleOutput payload cfg out []) "agent_count" =
      Dict.get? payload "agent_count" := by
  unfold assembleOutput
  dsimp only
  constructor <;> simp [Dict.get?_set]

theorem assembleOutput_trace_cons (payload : Dict PyVal) (cfg : ResolvedConfig)
    (out : String) (trace : List TraceEntry) (h : trace ≠ []) :
    Dict.get? (assembleOutput payload cfg out trace) "agent_trace" =
      some (.vlist (trace.map traceToPyVal)) ∧
    Dict.get? (assembleOutput payload cfg out trace) "agent_count" =
      some (.vint trace.length) := by
  unfold assembleOutput
  dsimp only
  rw [if_neg (by simpa [List.isEmpty_iff] using h)]
  constructor <;> simp [Dict.get?_set]

/-- The chained loop makes exactly one model invocation and one trace
entry per configured step. -/
theorem runChainGo_lengths (oracle : StepCall → String) (original_input : String)
    (num_ctx num_predict : Int) (temperature : Rat) (max_tool_calls : Int) :
    ∀ (l : List AgentCfg) (idx : Nat) (rc : String),
      (runChainGo oracle original_input num_ctx num_predict temperature max_tool_calls
        l idx rc).2.1.length = l.length ∧
      (runChainGo oracle original_input num_ctx num_predict temperature max_tool_calls
        l idx rc).2.2.length = l.length := by
  intro l
  induction l with
  | nil => intro idx rc; exact ⟨rfl, rfl⟩
  | cons c rest ih =>
      intro idx rc
      unfold runChainGo
      dsimp only
      constructor
      · simp [List.length_cons, (ih (idx + 1) _).1]
      · simp [List.length_cons, (ih (idx + 1) _).2]

theorem handler_ok_of_prompt (oracle : StepCall → String) (dflt : AgentDefaults)
    (params payload : Dict PyVal) {cfg : ResolvedConfig}
    (hres : resolveConfig dflt params = .ok cfg)
    (hpv : ((Dict.get? payload cfg.input_field).getD .vnone).isNone = false) :
    langgraphAgentHandler oracle dflt params payload =
      (let original_input := pyStr ((Dict.get? payload cfg.input_field).getD .vnone)
       let r :=
         if cfg.chain.isEmpty then
           let call : StepCall :=
             ⟨cfg.model, cfg.system_prompt, original_input, cfg.tools,
              cfg.num_ctx, cfg.num_predict, cfg.temperature, cfg.max_tool_calls⟩
           (oracle call, [call], ([] : List TraceEntry))
         else
           runChain oracle original_input cfg.num_ctx cfg.num_predict cfg.temperature
             cfg.max_tool_calls cfg.chain
       (r.2.1, .ok (assembleOutput payload cfg r.1 r.2.2))) := by
  rw [handler_eq_of_resolve_ok oracle dflt params payload hres]
  show (if ((Dict.get? payload cfg.input_field).getD .vnone).isNone then _ else _) = _
  rw [hpv]
  rfl

/-- C8: whenever the handler succeeds (valid configuration, non-null
input field), the returned payload is the incoming payload with the
documented fields added — the final text output, the model identifier,
the two generation limits, and the configured tool names — every other
field of the incoming payload is looked up unchanged, chained mode adds
an ordered trace with one entry per step plus the step count, and
single-step mode leaves the trace and count fields exactly as in the
incoming payload. -/
theorem c8_output_contract (oracle : StepCall → String) (dflt : AgentDefaults)
    (params payload : Dict PyVal) (cfg : ResolvedConfig)
    (hres : resolveConfig dflt params = .ok cfg)
    (hpv : ((Dict.get? payload cfg.input_field).getD .vnone).isNone = false) :
    ∃ calls res,
      langgraphAgentHandler oracle dflt params payload = (calls, .ok res) ∧
      (∃ s, Dict.get? res "agent_output" = some (.vstr s)) ∧
      Dict.get? res "agent_model" = some (.vstr cfg.model) ∧
      Dict.get? res "agent_num_ctx" = some (.vint cfg.num_ctx) ∧
      Dict.get? res "agent_num_predict" = some (.vint cfg.num_predict) ∧
      Dict.get? res "agent_tools" = some (.vlist (cfg.tools.map PyVal.vstr)) ∧
      (∀ k, k ≠ "agent_output" → k ≠ "agent_model" → k ≠ "agent_num_ctx" →
        k ≠ "agent_num_predict" → k ≠ "agent_tools" → k ≠ "agent_trace" →
        k ≠ "agent_count" → Dict.get? res k = Dict.get? payload k) ∧
      (cfg.chain = [] →
        Dict.get? res "agent_trace" = Dict.get? payload "agent_trace" ∧
        Dict.get? res "agent_count" = Dict.get? payload "agent_count") ∧
      (cfg.chain ≠ [] →
        ∃ trace : List TraceEntry, trace.length = cfg.chain.length ∧
          Dict.get? res "agent_trace" = some (.vlist (trace.map traceToPyVal)) ∧
          Dict.get? res "agent_count" = some (.vint cfg.chain.length)) := by
  rw [handler_ok_of_prompt oracle dflt params payload hres hpv]
  dsimp only
  cases hch : cfg.chain with
  | nil =>
      simp only [List.isEmpty_nil, if_true]
      refine ⟨_, _, rfl, ⟨_, assembleOutput_agent_output _ _ _ _⟩,
        assembleOutput_agent_model _ _ _ _, assembleOutput_agent_num_ctx _ _ _ _,
        assembleOutput_agent_num_predict _ _ _ _, assembleOutput_agent_tools _ _ _ _,
        ?_, ?_, ?_⟩
      · intro k h1 h2 h3 h4 h5 h6 h7
        exact assembleOutput_frame _ _ _ _ k h1 h2 h3 h4 h5 h6 h7
      · intro _
        exact assembleOutput_trace_nil _ _ _
      · intro h
        exact absurd rfl h
  | cons c cs =>
      simp only [List.isEmpty_cons, Bool.false_eq_true, if_false]
      have hlen : (runChain oracle (pyStr ((Dict.get? payload cfg.input_field).getD .vnone))
          cfg.num_ctx cfg.num_predict cfg.temperature cfg.max_tool_calls
          (c :: cs)).2.2.length = (c :: cs).length :=
        (runChainGo_lengths oracle _ cfg.num_ctx cfg.num_predict cfg.temperature
          cfg.max_tool_calls (c :: cs) 0 _).2
      have htne : (runChain oracle (pyStr ((Dict.get? payload cfg.input_field).getD .vnone))
          cfg.num_ctx cfg.num_predict cfg.temperature cfg.max_tool_calls
          (c :: cs)).2.2 ≠ [] := by
        intro hnil
        rw [hnil] at hlen
        exact absurd hlen.symm (by simp)
      obtain ⟨htr, hcnt⟩ := assembleOutput_trace_cons payload cfg _ _ htne
      refine ⟨_, _, rfl, ⟨_, assembleOutput_agent_output _ _ _ _⟩,
        assembleOutput_agent_model _ _ _ _, assembleOutput_agent_num_ctx _ _ _ _,
        assembleOutput_agent_num_predict _ _ _ _, assembleOutput_agent_tools _ _ _ _,
        ?_, ?_, ?_⟩
      · intro k h1 h2 h3 h4 h5 h6 h7
        exact assembleOutput_frame _ _ _ _ k h1 h2 h3 h4 h5 h6 h7
      · intro h
        exact absurd h (List.cons_ne_nil c cs)
      · intro _
        rw [hlen] at hcnt
        exact ⟨_, hlen, htr, hcnt⟩

/-- Witness for C8, single-step mode: the input field `message` with a
pre-existing unrelated field `keep` survives unchanged, the added fields
are present, and no trace or count is added. -/
theorem c8_output_contract_witness :
    (∃ calls res,
      langgraphAgentHandler exOracle agDflt []
        [("message", PyVal.vstr "hi"), ("keep", PyVal.vint 7)] = (calls, .ok res) ∧
      (∃ s, Dict.get? res "agent_output" = some (.vstr s)) ∧
      Dict.get? res "agent_model" = some (.vstr "qwen2.5:1.5b") ∧
      Dict.get? res "agent_num_ctx" = some (.vint 1024) ∧
      Dict.get? res "agent_num_predict" = some (.vint 128) ∧
      Dict.get? res "agent_tools" =
        some (.vlist [.vstr "calculator", .vstr "utc_time"]) ∧
      Dict.get? res "keep" = some (.vint 7) ∧
      Dict.get? res "agent_trace" = none ∧
      Dict.get? res "agent_count" = none) := by
  have hres : resolveConfig agDflt [] =
      .ok ⟨"qwen2.5:1.5b", "You are a helpful workflow agent.", "message", 1024, 128,
        (1 / 5 : Rat), 6, ["calculator", "utc_time"], []⟩ := by rfl
  obtain ⟨calls, res, heq, hout, hmod, hctx, hpred, htools, hframe, hnil, _⟩ :=
    c8_output_contract exOracle agDflt []
      [("message", PyVal.vstr "hi"), ("keep", PyVal.vint 7)] _ hres (by rfl)
  refine ⟨calls, res, heq, hout, hmod, hctx, hpred, htools, ?_, ?_, ?_⟩
  · rw [hframe "keep" (by decide) (by decide) (by decide) (by decide) (by decide)
      (by decide) (by decide)]
    rfl
  · rw [(hnil rfl).1]
    rfl
  · rw [(hnil rfl).2]
    rfl

/-! ### C5: chained agent orchestration -/

theorem runChainGo_nil (o : StepCall → String) (orig : String) (nc np : Int)
    (temp : Rat) (mtc : Int) (idx : Nat) (rc : String) :
    runChainGo o orig nc np temp mtc [] idx rc = (rc, [], []) := rfl

theorem runChainGo_cons_eq (o : StepCall → String) (orig : String) (nc np : Int)
    (temp : Rat) (mtc : Int) (c : AgentCfg) (l : List AgentCfg) (idx : Nat) (rc : String) :
    runChainGo o orig nc np temp mtc (c :: l) idx rc =
      (let step_input := if idx == 0 then rc else chainPrompt orig rc
       let call : StepCall := ⟨c.model, c.system_prompt, step_input, c.tools, nc, np, temp, mtc⟩
       let output := o call
       let rc2 := if pyStrip output ≠ "" then output else rc
       let r := runChainGo o orig nc np temp mtc l (idx + 1) rc2
       (r.1, call :: r.2.1, ⟨c.name, c.model, c.tools, output⟩ :: r.2.2)) := rfl

theorem runChainGo_append (o : StepCall → String) (orig : String) (nc np : Int)
    (temp : Rat) (mtc : Int) :
    ∀ (l₁ l₂ : List AgentCfg) (idx : Nat) (rc : String),
      runChainGo o orig nc np temp mtc (l₁ ++ l₂) idx rc =
        ((runChainGo o orig nc np temp mtc l₂ (idx + l₁.length)
            (runChainGo o orig nc np temp mtc l₁ idx rc).1).1,
         (runChainGo o orig nc np temp mtc l₁ idx rc).2.1 ++
           (runChainGo o orig nc np temp mtc l₂ (idx + l₁.length)
             (runChainGo o orig nc np temp mtc l₁ idx rc).1).2.1,
         (runChainGo o orig nc np temp mtc l₁ idx rc).2.2 ++
           (runChainGo o orig nc np temp mtc l₂ (idx + l₁.length)
             (runChainGo o orig nc np temp mtc l₁ idx rc).1).2.2) := by
  intro l₁
  induction l₁ with
  | nil =>
      intro l₂ idx rc
      show runChainGo o orig nc np temp mtc l₂ idx rc = _
      simp [runChainGo]
  | cons c rest ih =>
      intro l₂ idx rc
      show runChainGo o orig nc np temp mtc (c :: (rest ++ l₂)) idx rc = _
      rw [runChainGo_cons_eq]
      rw [runChainGo_cons_eq]
      dsimp only
      rw [ih]
      simp only [List.length_cons, List.cons_append]
      rw [show idx + 1 + rest.length = idx + (rest.length + 1) from by omega]

/-- The running context once the first `k` steps of the configured chain
have executed (the value of `running_context` entering step `k`,
counting from zero). -/
def cfgCtx (o : StepCall → String) (orig : String) (cfg : ResolvedConfig) (k : Nat) : String :=
  (runChainGo o orig cfg.num_ctx cfg.num_predict cfg.temperature cfg.max_tool_calls
    (cfg.chain.take k) 0 orig).1

/-- The model invocation step `i` (configured as `c`) performs. -/
def cfgStepCall (o : StepCall → String) (orig : String) (cfg : ResolvedConfig)
    (i : Nat) (c : AgentCfg) : StepCall :=
  ⟨c.model, c.system_prompt,
   if i == 0 then cfgCtx o orig cfg i else chainPrompt orig (cfgCtx o orig cfg i),
   c.tools, cfg.num_ctx, cfg.num_predict, cfg.temperature, cfg.max_tool_calls⟩

theorem cfgCtx_zero (o : StepCall → String) (orig : String) (cfg : ResolvedConfig) :
    cfgCtx o orig cfg 0 = orig := rfl

theorem take_succ_of_get? {α : Type} {l : List α} {n : Nat} {a : α}
    (h : l.get? n = some a) : l.take (n + 1) = l.take n ++ [a] := by
  rw [List.take_succ, ← List.get?_eq_getElem?, h]
  rfl

theorem runChainGo_take_length (o : StepCall → String) (orig : String) (nc np : Int)
    (temp : Rat) (mtc : Int) (l : List AgentCfg) (k : Nat) (idx : Nat) (rc : String)
    (h : k ≤ l.length) :
    (runChainGo o orig nc np temp mtc (l.take k) idx rc).2.1.length = k ∧
    (runChainGo o orig nc np temp mtc (l.take k) idx rc).2.2.length = k := by
  have := runChainGo_lengths o orig nc np temp mtc (l.take k) idx rc
  rwa [List.length_take, Nat.min_eq_left h] at this

theorem cfgCtx_succ (o : StepCall → String) (orig : String) (cfg : ResolvedConfig)
    {i : Nat} {c : AgentCfg} (hc : cfg.chain.get? i = some c) :
    cfgCtx o orig cfg (i + 1) =
      (if pyStrip (o (cfgStepCall o orig cfg i c)) ≠ "" then o (cfgStepCall o orig cfg i c)
       else cfgCtx o orig cfg i) := by
  obtain ⟨hlt, -⟩ := List.get?_eq_some.mp hc
  unfold cfgCtx cfgStepCall
  rw [take_succ_of_get? hc, runChainGo_append]
  dsimp only
  rw [show (0 : Nat) + (cfg.chain.take i).length = (cfg.chain.take i).length from by omega,
    List.length_take, Nat.min_eq_left (Nat.le_of_lt hlt)]
  rw [runChainGo_cons_eq]
  dsimp only
  rw [runChainGo_nil]
  rfl

theorem drop_eq_cons_of_get? {α : Type} {l : List α} {n : Nat} {a : α}
    (h : l.get? n = some a) : l.drop n = a :: l.drop (n + 1) := by
  obtain ⟨hlt, hg⟩ := List.get?_eq_some.mp h
  rw [List.drop_eq_getElem_cons hlt]
  congr 1
  all_goals rw [← hg]

/-- The chained loop on the full chain, split at step `i`: the steps
before `i` run first, step `i` performs exactly the invocation
`cfgStepCall`, and the later steps continue from the updated running
context. -/
theorem runChainGo_split_at (o : StepCall → String) (orig : String) (cfg : ResolvedConfig)
    {i : Nat} {c : AgentCfg} (hc : cfg.chain.get? i = some c) :
    runChainGo o orig cfg.num_ctx cfg.num_predict cfg.temperature cfg.max_tool_calls
      cfg.chain 0 orig =
      (let A := runChainGo o orig cfg.num_ctx cfg.num_predict cfg.temperature
         cfg.max_tool_calls (cfg.chain.take i) 0 orig
       let call := cfgStepCall o orig cfg i c
       let output := o call
       let rc2 := if pyStrip output ≠ "" then output else A.1
       let B := runChainGo o orig cfg.num_ctx cfg.num_predict cfg.temperature
         cfg.max_tool_calls (cfg.chain.drop (i + 1)) (i + 1) rc2
       (B.1, A.2.1 ++ call :: B.2.1,
        A.2.2 ++ ⟨c.name, c.model, c.tools, output⟩ :: B.2.2)) := by
  obtain ⟨hlt, -⟩ := List.get?_eq_some.mp hc
  conv_lhs =>
    rw [show cfg.chain = cfg.chain.take i ++ cfg.chain.drop i from
      (List.take_append_drop i cfg.chain).symm]
    rw [drop_eq_cons_of_get? hc]
    rw [runChainGo_append]
    rw [runChainGo_cons_eq]
  rw [show (0 : Nat) + (cfg.chain.take i).length = i from by
    rw [List.length_take, Nat.min_eq_left (Nat.le_of_lt hlt)]
    omega]
  rfl

theorem runChain_eq (o : StepCall → String) (orig : String) (nc np : Int)
    (temp : Rat) (mtc : Int) (chain : List AgentCfg) :
    runChain o orig nc np temp mtc chain =
      runChainGo o orig nc np temp mtc chain 0 orig := rfl

theorem runChain_calls_get? (o : StepCall → String) (orig : String) (cfg : ResolvedConfig)
    {i : Nat} {c : AgentCfg} (hc : cfg.chain.get? i = some c) :
    (runChainGo o orig cfg.num_ctx cfg.num_predict cfg.temperature cfg.max_tool_calls
      cfg.chain 0 orig).2.1.get? i = some (cfgStepCall o orig cfg i c) := by
  obtain ⟨hlt, -⟩ := List.get?_eq_some.mp hc
  rw [runChainGo_split_at o orig cfg hc]
  dsimp only
  have hlen := (runChainGo_take_length o orig cfg.num_ctx cfg.num_predict cfg.temperature
    cfg.max_tool_calls cfg.chain i 0 orig (Nat.le_of_lt hlt)).1
  rw [List.get?_append_right (le_of_eq hlen), hlen, Nat.sub_self]
  rfl

theorem runChain_trace_get? (o : StepCall → String) (orig : String) (cfg : ResolvedConfig)
    {i : Nat} {c : AgentCfg} (hc : cfg.chain.get? i = some c) :
    (runChainGo o orig cfg.num_ctx cfg.num_predict cfg.temperature cfg.max_tool_calls
      cfg.chain 0 orig).2.2.get? i =
      some ⟨c.name, c.model, c.tools, o (cfgStepCall o orig cfg i c)⟩ := by
  obtain ⟨hlt, -⟩ := List.get?_eq_some.mp hc
  rw [runChainGo_split_at o orig cfg hc]
  dsimp only
  have hlen := (runChainGo_take_length o orig cfg.num_ctx cfg.num_predict cfg.temperature
    cfg.max_tool_calls cfg.chain i 0 orig (Nat.le_of_lt hlt)).2
  rw [List.get?_append_right (le_of_eq hlen), hlen, Nat.sub_self]
  rfl

theorem runChain_fst (o : StepCall → String) (orig : String) (cfg : ResolvedConfig) :
    (runChainGo o orig cfg.num_ctx cfg.num_predict cfg.temperature cfg.max_tool_calls
      cfg.chain 0 orig).1 = cfgCtx o orig cfg cfg.chain.length := by
  unfold cfgCtx
  rw [List.take_length]

/-- C5: in chained mode (non-empty configured step list, valid
configuration, non-null input field) the handler makes one model
invocation per step: step `0` is invoked with the original user prompt
unmodified, every later step `i` with the fixed template embedding the
original request and the running context entering step `i`; a step's
output replaces the running context only when non-empty after trimming,
while its trace entry always records the raw output; and the final
`agent_output` field is the running context after the last step. -/
theorem c5_chained_steps (oracle : StepCall → String) (dflt : AgentDefaults)
    (params payload : Dict PyVal) (cfg : ResolvedConfig) (orig : String)
    (hres : resolveConfig dflt params = .ok cfg)
    (hpv : ((Dict.get? payload cfg.input_field).getD .vnone).isNone = false)
    (horig : orig = pyStr ((Dict.get? payload cfg.input_field).getD .vnone))
    (hchain : cfg.chain ≠ []) :
    ∃ (calls : List StepCall) (trace : List TraceEntry) (res : Dict PyVal),
      langgraphAgentHandler oracle dflt params payload = (calls, .ok res) ∧
      calls.length = cfg.chain.length ∧
      trace.length = cfg.chain.length ∧
      cfgCtx oracle orig cfg 0 = orig ∧
      Dict.get? res "agent_output" =
        some (.vstr (cfgCtx oracle orig cfg cfg.chain.length)) ∧
      Dict.get? res "agent_trace" = some (.vlist (trace.map traceToPyVal)) ∧
      (∀ i c, cfg.chain.get? i = some c →
        calls.get? i = some (cfgStepCall oracle orig cfg i c) ∧
        (cfgStepCall oracle orig cfg i c).user_prompt =
          (if i = 0 then orig else chainPrompt orig (cfgCtx oracle orig cfg i)) ∧
        trace.get? i =
          some ⟨c.name, c.model, c.tools, oracle (cfgStepCall oracle orig cfg i c)⟩ ∧
        cfgCtx oracle orig cfg (i + 1) =
          (if pyStrip (oracle (cfgStepCall oracle orig cfg i c)) ≠ ""
           then oracle (cfgStepCall oracle orig cfg i c)
           else cfgCtx oracle orig cfg i)) := by
  subst horig
  rw [handler_ok_of_prompt oracle dflt params payload hres hpv]
  dsimp only
  have hie : cfg.chain.isEmpty = false := by simpa [List.isEmpty_iff] using hchain
  rw [hie]
  simp only [Bool.false_eq_true, if_false]
  rw [runChain_eq]
  have hlens := runChainGo_lengths oracle
    (pyStr ((Dict.get? payload cfg.input_field).getD .vnone)) cfg.num_ctx cfg.num_predict
    cfg.temperature cfg.max_tool_calls cfg.chain 0
    (pyStr ((Dict.get? payload cfg.input_field).getD .vnone))
  have htne : (runChainGo oracle (pyStr ((Dict.get? payload cfg.input_field).getD .vnone))
      cfg.num_ctx cfg.num_predict cfg.temperature cfg.max_tool_calls cfg.chain 0
      (pyStr ((Dict.get? payload cfg.input_field).getD .vnone))).2.2 ≠ [] := by
    intro hnil
    rw [hnil] at hlens
    have h0 : cfg.chain.length = 0 := by simpa using hlens.2.symm
    exact hchain (List.eq_nil_of_length_eq_zero h0)
  refine ⟨_, _, _, rfl, hlens.1, hlens.2, rfl, ?_, ?_, ?_⟩
  · rw [assembleOutput_agent_output, runChain_fst]
  · exact (assembleOutput_trace_cons _ _ _ _ htne).1
  · intro i c hc
    refine ⟨runChain_calls_get? oracle _ cfg hc, ?_, runChain_trace_get? oracle _ cfg hc,
      cfgCtx_succ oracle _ cfg hc⟩
    unfold cfgStepCall
    dsimp only
    by_cases hi : i = 0
    · subst hi
      rw [if_pos rfl, if_pos (by rfl)]
      rfl
    · rw [if_neg (show ¬ ((i == 0) = true) by simpa using hi), if_neg hi]

/-- A fixed oracle returning only whitespace, to exercise the
running-context preservation rule. -/
def wsOracle : StepCall → String := fun _ => " "

def c5wChain : List AgentCfg :=
  [⟨"agent_1", "You are a helpful workflow agent.", "qwen2.5:1.5b", ["calculator", "utc_time"]⟩,
   ⟨"agent_2", "You are a helpful workflow agent.", "qwen2.5:1.5b", ["calculator", "utc_time"]⟩]

def c5wCfg : ResolvedConfig :=
  ⟨"qwen2.5:1.5b", "You are a helpful workflow agent.", "message", 1024, 128, (1 / 5 : Rat), 6,
   ["calculator", "utc_time"], c5wChain⟩

def c5wParams : Dict PyVal := [("agents", PyVal.vlist [PyVal.vdict [], PyVal.vdict []])]

/-- Witness for C5 on a two-step chain: with an echoing model, step 0
gets the raw prompt `P`, step 1 gets the template over `P` and step 0's
output, and the final output is step 1's output; with a whitespace-only
model, the running context stays `P`, the trace still records the
whitespace output, and the final output is `P`. -/
theorem c5_chained_steps_witness :
    (∃ (calls : List StepCall) (trace : List TraceEntry) (res : Dict PyVal),
      langgraphAgentHandler exOracle agDflt c5wParams [("message", PyVal.vstr "P")] =
        (calls, .ok res) ∧
      calls.length = 2 ∧
      (∃ call0, calls.get? 0 = some call0 ∧ call0.user_prompt = "P") ∧
      (∃ call1, calls.get? 1 = some call1 ∧
        call1.user_prompt = chainPrompt "P" "out(P)") ∧
      Dict.get? res "agent_output" =
        some (.vstr ("out(" ++ chainPrompt "P" "out(P)" ++ ")"))) ∧
    (∃ (calls : List StepCall) (trace : List TraceEntry) (res : Dict PyVal),
      langgraphAgentHandler wsOracle agDflt c5wParams [("message", PyVal.vstr "P")] =
        (calls, .ok res) ∧
      (∃ call1, calls.get? 1 = some call1 ∧ call1.user_prompt = chainPrompt "P" "P") ∧
      trace.get? 0 = some ⟨"agent_1", "qwen2.5:1.5b", ["calculator", "utc_time"], " "⟩ ∧
      Dict.get? res "agent_output" = some (.vstr "P")) := by
  constructor
  · obtain ⟨calls, trace, res, heq, hlen, -, -, hout, -, hsteps⟩ :=
      c5_chained_steps exOracle agDflt c5wParams [("message", PyVal.vstr "P")] c5wCfg "P"
        (by rfl) (by rfl) (by rfl) (by simp [c5wCfg, c5wChain])
    obtain ⟨h0, hup0, -, -⟩ := hsteps 0
      ⟨"agent_1", "You are a helpful workflow agent.", "qwen2.5:1.5b",
        ["calculator", "utc_time"]⟩ rfl
    obtain ⟨h1, hup1, -, -⟩ := hsteps 1
      ⟨"agent_2", "You are a helpful workflow agent.", "qwen2.5:1.5b",
        ["calculator", "utc_time"]⟩ rfl
    refine ⟨calls, trace, res, heq, ?_, ⟨_, h0, ?_⟩, ⟨_, h1, ?_⟩, ?_⟩
    · rw [hlen]
      rfl
    · rw [hup0]
      rfl
    · rw [hup1]
      rfl
    · rw [hout]
      rfl
  · obtain ⟨calls, trace, res, heq, -, -, -, hout, -, hsteps⟩ :=
      c5_chained_steps wsOracle agDflt c5wParams [("message", PyVal.vstr "P")] c5wCfg "P"
        (by rfl) (by rfl) (by rfl) (by simp [c5wCfg, c5wChain])
    obtain ⟨-, -, htr0, -⟩ := hsteps 0
      ⟨"agent_1", "You are a helpful workflow agent.", "qwen2.5:1.5b",
        ["calculator", "utc_time"]⟩ rfl
    obtain ⟨h1, hup1, -, -⟩ := hsteps 1
      ⟨"agent_2", "You are a helpful workflow agent.", "qwen2.5:1.5b",
        ["calculator", "utc_time"]⟩ rfl
    refine ⟨calls, trace, res, heq, ⟨_, h1, ?_⟩, ?_, ?_⟩
    · rw [hup1]
      rfl
    · rw [htr0]
      rfl
    · rw [hout]
      rfl

end OpenFlow
